import Mathlib

/-!
Verification of the `automata` repository: a regular-expression parser,
Glushkov-style AST attributes, and four automaton constructions
(Position, Follow, McNaughton-Yamada, Mark-Before) with subset
determinisation, reversal and Brzozowski minimisation.

The definitions below are shallow embeddings of `automata/tree.py`,
`automata/parser.py`, `automata/impl.py` and `automata/automata.py`.
Python `set` becomes `Finset`, `dict[int, str]` becomes `ℕ → Option Char`
(with right-biased union mirroring `l | r`), words become `List Char`.
-/

deriving instance DecidableEq for Except

namespace Automata

/-- AST of regular expressions, mirroring `automata/tree.py`
(`Symbol`, `Star`, `Concat`, `Alt`). -/
inductive Node : Type
  | Symbol (value : Char) (index : ℕ)
  | Star (child : Node)
  | Concat (left : Node) (right : Node)
  | Alt (left : Node) (right : Node)
deriving DecidableEq, Repr

namespace Node

/-- `Node.nullable` from `tree.py`. -/
def nullable : Node → Bool
  | Symbol _ _ => false
  | Star _ => true
  | Concat l r => l.nullable && r.nullable
  | Alt l r => l.nullable || r.nullable

/-- `Node.first` from `tree.py`. -/
def first : Node → Finset ℕ
  | Symbol _ k => {k}
  | Star c => c.first
  | Concat l r => if l.nullable then l.first ∪ r.first else l.first
  | Alt l r => l.first ∪ r.first

/-- `Node.last` from `tree.py`. -/
def last : Node → Finset ℕ
  | Symbol _ k => {k}
  | Star c => c.last
  | Concat l r => if r.nullable then l.last ∪ r.last else r.last
  | Alt l r => l.last ∪ r.last

/-- `Node.last_0` from `tree.py`: `last ∪ {0}` when nullable. -/
def last_0 (n : Node) : Finset ℕ :=
  if n.nullable then n.last ∪ {0} else n.last

/-- `Node.follow` from `tree.py`; `itertools.product` becomes `×ˢ`. -/
def follow : Node → Finset (ℕ × ℕ)
  | Symbol _ _ => ∅
  | Star c => c.last ×ˢ c.first ∪ c.follow
  | Concat l r => l.last ×ˢ r.first ∪ l.follow ∪ r.follow
  | Alt l r => l.follow ∪ r.follow

/-- `Node.pos` from `tree.py` as a partial map. Python merges the child
dicts with `left | right` where the right operand wins on a shared key;
the right-biased `match` below mirrors that. -/
def pos : Node → ℕ → Option Char
  | Symbol v k => fun i => if i = k then some v else none
  | Star c => c.pos
  | Concat l r => fun i =>
      match r.pos i with
      | some v => some v
      | none => l.pos i
  | Alt l r => fun i =>
      match r.pos i with
      | some v => some v
      | none => l.pos i

/-- The key set of `Node.pos` (the dict's domain). -/
def posDom : Node → Finset ℕ
  | Symbol _ k => {k}
  | Star c => c.posDom
  | Concat l r => l.posDom ∪ r.posDom
  | Alt l r => l.posDom ∪ r.posDom

/-- In-order list of `(index, value)` pairs of the symbols of a node;
for parsed nodes (disjoint indices) this is exactly the association list
of the `pos` dict in insertion order. -/
def syms : Node → List (ℕ × Char)
  | Symbol v k => [(k, v)]
  | Star c => c.syms
  | Concat l r => l.syms ++ r.syms
  | Alt l r => l.syms ++ r.syms

/-- The alphabet list `list(pos.values())` used by `FromNode.symbols`. -/
def symbolsL (n : Node) : List Char := n.syms.map Prod.snd

/-- `Node.reverse` from `tree.py`. -/
def reverse : Node → Node
  | Symbol v k => Symbol v k
  | Star c => Star c.reverse
  | Concat l r => Concat r.reverse l.reverse
  | Alt l r => Alt r.reverse l.reverse

end Node

/-- `FollowState` from `impl.py`: a follow set paired with a finality
flag; equality and hashing are structural. -/
structure FollowState : Type where
  follow : Finset ℕ
  final : Bool
deriving DecidableEq

namespace FromNode

/-- `FromNode.follow_i` from `impl.py`: the first set for the synthetic
state `0`, otherwise the successors of `idx` in the follow relation. -/
def follow_i (n : Node) (idx : ℕ) : Finset ℕ :=
  if idx = 0 then n.first
  else (n.follow.filter (fun p => p.1 = idx)).image Prod.snd

/-- `FromNode.follow_set` from `impl.py`: union of `follow_i` over a set. -/
def follow_set (n : Node) (s : Finset ℕ) : Finset ℕ :=
  s.biUnion (follow_i n)

/-- `FromNode.select` from `impl.py`: the members of `s` whose symbol in
`pos` is the given one. -/
def select (n : Node) (s : Finset ℕ) (symbol : Char) : Finset ℕ :=
  s.filter (fun i => n.pos i = some symbol)

end FromNode

/-- The loop body of `NFA.accepts` from `impl.py`: starting from a state
set, consume the word one symbol at a time, returning `false` as soon as
the frontier is empty, and finish by asking whether any remaining state
is final. -/
def nfaAccepts {σ : Type} [DecidableEq σ]
    (is_final : σ → Bool) (transition : σ → Char → Finset σ) :
    Finset σ → List Char → Bool
  | states, [] => decide (∃ s ∈ states, is_final s)
  | states, symbol :: word =>
      if states = ∅ then false
      else nfaAccepts is_final transition
        (states.biUnion (fun s => transition s symbol)) word

/-- The loop body of `DFA.accepts` from `impl.py`; `isEmpty` models the
`len(state) == 0` test (frozenset cardinality for subset states, the
cardinality of the follow component for `FollowState`s). -/
def dfaAccepts {σ : Type}
    (isEmpty : σ → Bool) (is_final : σ → Bool) (transition : σ → Char → σ) :
    σ → List Char → Bool
  | state, [] => is_final state
  | state, symbol :: word =>
      if isEmpty state then false
      else dfaAccepts isEmpty is_final transition (transition state symbol) word

namespace PositionAutomata

/-- `PositionAutomata.transition` from `impl.py`. -/
def transition (n : Node) (state : ℕ) (symbol : Char) : Finset ℕ :=
  FromNode.select n (FromNode.follow_i n state) symbol

/-- `PositionAutomata.is_final` from `impl.py`. -/
def is_final (n : Node) (state : ℕ) : Bool := state ∈ n.last_0

/-- `PositionAutomata(n).nfa().accepts(word)` from `impl.py`,
with `initial = {0}`. -/
def accepts (n : Node) (word : List Char) : Bool :=
  nfaAccepts (is_final n) (transition n) {0} word

end PositionAutomata

namespace McNaughtonYamadaAutomata

/-- `McNaughtonYamadaAutomata.transition` from `impl.py`. -/
def transition (n : Node) (state : Finset ℕ) (symbol : Char) : Finset ℕ :=
  FromNode.select n (FromNode.follow_set n state) symbol

/-- `McNaughtonYamadaAutomata.is_final` from `impl.py`. -/
def is_final (n : Node) (state : Finset ℕ) : Bool :=
  decide (∃ s ∈ state, s ∈ n.last_0)

/-- `McNaughtonYamadaAutomata(n).dfa().accepts(word)` from `impl.py`,
with `initial = frozenset([0])`. -/
def accepts (n : Node) (word : List Char) : Bool :=
  dfaAccepts (fun state => state = ∅) (is_final n) (transition n) {0} word

end McNaughtonYamadaAutomata

namespace FollowAutomata

/-- `FollowAutomata.follow_state` from `impl.py`. -/
def follow_state (n : Node) (idx : ℕ) : FollowState :=
  ⟨FromNode.follow_i n idx, decide (idx ∈ n.last_0)⟩

/-- `FollowAutomata.transition` from `impl.py`. -/
def transition (n : Node) (state : FollowState) (symbol : Char) :
    Finset FollowState :=
  (FromNode.select n state.follow symbol).image (follow_state n)

/-- `FollowAutomata(n).nfa().accepts(word)` from `impl.py`,
with `initial = {follow_state(0)}` and `is_final fs = fs.final`. -/
def accepts (n : Node) (word : List Char) : Bool :=
  nfaAccepts (fun fs => fs.final) (transition n) {follow_state n 0} word

end FollowAutomata

namespace MarkBeforeAutomata

/-- `MarkBeforeAutomata.set_finality` from `impl.py`. -/
def set_finality (n : Node) (s : Finset ℕ) : Bool :=
  decide (∃ i ∈ s, i ∈ n.last_0)

/-- `MarkBeforeAutomata.initial` from `impl.py`. -/
def initial (n : Node) : FollowState :=
  ⟨n.first, decide (0 ∈ n.last_0)⟩

/-- `MarkBeforeAutomata.transition` from `impl.py`. -/
def transition (n : Node) (state : FollowState) (symbol : Char) : FollowState :=
  let sel := FromNode.select n state.follow symbol
  ⟨FromNode.follow_set n sel, set_finality n sel⟩

/-- `MarkBeforeAutomata(n).dfa().accepts(word)` from `impl.py`; the
`len(state) == 0` test reads the cardinality of the follow component. -/
def accepts (n : Node) (word : List Char) : Bool :=
  dfaAccepts (fun fs => fs.follow = ∅) (fun fs => fs.final) (transition n)
    (initial n) word

end MarkBeforeAutomata

/-! ## Parser (`automata/parser.py`)

The recursive-descent parser is embedded state-passing style. The
mutable `Parser` object becomes `PState` (cursor, symbol counter, open
paren counter) threaded through the four mutually recursive parse
functions. Python exceptions become an error result; the `SyntaxError`
message formats of `parser.py` become the constructors of `ParseError`.
A fuel argument makes the mutual recursion structurally terminating;
`PResult.out` (fuel exhausted) is an artifact of the total encoding and
is never returned for the fuel supplied by `parse`. -/

/-- The mutable state of `Parser` from `parser.py`: `_pos`,
`_symbol_count` (starts at 1) and `_paren_count` (starts at 0). -/
structure PState : Type where
  pos : ℕ
  symbol_count : ℕ
  paren_count : ℕ
deriving DecidableEq, Repr

/-- The parse errors of `parser.py`, one constructor per raise site:
`expected ')'` with the found token, `expected symbol` finding a
reserved character, `expected symbol` finding the end of the input, and
the stray close paren raised by `_parse_alt`. -/
inductive ParseError : Type
  | expectedCloseParen (index : ℕ) (found : Option Char)
  | unexpectedToken (index : ℕ) (found : Char)
  | emptyInput (index : ℕ)
  | unexpectedCloseParen (index : ℕ)
deriving DecidableEq, Repr

/-- Outcome of one parse function: a node with the updated state, an
error, or fuel exhaustion. -/
inductive PResult : Type
  | ok (node : Node) (state : PState)
  | err (e : ParseError)
  | out
deriving DecidableEq, Repr

/-- `Parser._next` from `parser.py`: the token under the cursor, if any. -/
def pnext (tokens : List Char) (s : PState) : Option Char :=
  tokens[s.pos]?

/-- The reserved characters rejected by `_parse_atom`. -/
def reservedChar (c : Char) : Bool :=
  c = ')' || c = '|' || c = '*'

mutual

/-- `Parser._parse_atom` from `parser.py`: consume one token, then
either parse a parenthesised group, reject a reserved character or the
end of the input, or produce a `Symbol` with the next counter value. -/
def parseAtom : ℕ → List Char → PState → PResult
  | 0, _, _ => .out
  | fuel + 1, tokens, s =>
      let char := pnext tokens s
      let s1 : PState := { s with pos := s.pos + 1 }
      if char = some '(' then
        let s2 : PState := { s1 with paren_count := s1.paren_count + 1 }
        match parseAlt fuel tokens s2 with
        | .ok alt s3 =>
            if pnext tokens s3 = some ')' then
              .ok alt { s3 with paren_count := s3.paren_count - 1,
                                pos := s3.pos + 1 }
            else .err (.expectedCloseParen s3.pos (pnext tokens s3))
        | .err e => .err e
        | .out => .out
      else
        match char with
        | some c =>
            if reservedChar c then .err (.unexpectedToken s1.pos c)
            else .ok (.Symbol c s1.symbol_count)
              { s1 with symbol_count := s1.symbol_count + 1 }
        | none => .err (.emptyInput s1.pos)

/-- `Parser._parse_star` from `parser.py`. -/
def parseStar : ℕ → List Char → PState → PResult
  | 0, _, _ => .out
  | fuel + 1, tokens, s =>
      match parseAtom fuel tokens s with
      | .ok atom s1 =>
          if pnext tokens s1 = some '*' then
            .ok (.Star atom) { s1 with pos := s1.pos + 1 }
          else .ok atom s1
      | .err e => .err e
      | .out => .out

/-- `Parser._parse_concat` from `parser.py`. -/
def parseConcat : ℕ → List Char → PState → PResult
  | 0, _, _ => .out
  | fuel + 1, tokens, s =>
      match parseStar fuel tokens s with
      | .ok star s1 =>
          if pnext tokens s1 = some '|' ∨ pnext tokens s1 = some ')' ∨
              pnext tokens s1 = none then .ok star s1
          else
            match parseConcat fuel tokens s1 with
            | .ok concat s2 => .ok (.Concat star concat) s2
            | .err e => .err e
            | .out => .out
      | .err e => .err e
      | .out => .out

/-- `Parser._parse_alt` from `parser.py`. -/
def parseAlt : ℕ → List Char → PState → PResult
  | 0, _, _ => .out
  | fuel + 1, tokens, s =>
      match parseConcat fuel tokens s with
      | .ok concat s1 =>
          if pnext tokens s1 = some ')' ∧ s1.paren_count = 0 then
            .err (.unexpectedCloseParen s1.pos)
          else if pnext tokens s1 = some '|' then
            match parseAlt fuel tokens { s1 with pos := s1.pos + 1 } with
            | .ok alt s2 => .ok (.Alt concat alt) s2
            | .err e => .err e
            | .out => .out
          else .ok concat s1
      | .err e => .err e
      | .out => .out

end

/-- `Parser(pattern).parse()` from `parser.py`: run `_parse_alt` from
the initial state and return the node, an error, or `none` when the
fuel (always sufficient for this bound) runs out. -/
def parse (pattern : String) : Option (Except ParseError Node) :=
  match parseAlt (4 * pattern.length + 8) pattern.toList ⟨0, 1, 0⟩ with
  | .ok n _ => some (.ok n)
  | .err e => some (.error e)
  | .out => none

/-! ## Legacy position automaton (`automata/automata.py`) -/

namespace AutomataPy

/-- `PositionAutomata.transition` from `automata/automata.py`. Note:
from the synthetic state `0` it returns `first` without filtering by
the consumed symbol. -/
def transition (n : Node) (index : ℕ) (symbol : Char) : Finset ℕ :=
  if index = 0 then n.first
  else ((n.follow.filter (fun p => p.1 = index ∧ n.pos p.2 = some symbol)).image
    Prod.snd)

/-- `Automata.accepts` from `automata/automata.py`: same frontier loop
as `impl.py`, but the final test is
`len(states.intersection(final)) > 0` with `final = last_0`. -/
def accepts (n : Node) : Finset ℕ → List Char → Bool
  | states, [] => decide (0 < (states ∩ n.last_0).card)
  | states, symbol :: word =>
      if states = ∅ then false
      else accepts n (states.biUnion (fun s => transition n s symbol)) word

/-- `match_re` from `automata/automata.py` with the default engine
(`PositionAutomata`): parse, build, accept; parse errors propagate. -/
def match_re (pattern string : String) : Option (Except ParseError Bool) :=
  match parse pattern with
  | some (.ok n) => some (.ok (accepts n {0} string.toList))
  | some (.error e) => some (.error e)
  | none => none

end AutomataPy

/-! ## Derived definitions used by the verification -/

/-- One frontier step of `NFA.accepts`: union of the successor sets. -/
def nfaStep {σ : Type} [DecidableEq σ] (transition : σ → Char → Finset σ)
    (states : Finset σ) (symbol : Char) : Finset σ :=
  states.biUnion (fun s => transition s symbol)

/-- The Mark-Before state determined by a McNaughton-Yamada state. -/
def toMB (n : Node) (S : Finset ℕ) : FollowState :=
  ⟨FromNode.follow_set n S, MarkBeforeAutomata.set_finality n S⟩

/-- The AST of the pattern `a*b`, used as a concrete example. -/
def exampleAStarB : Node :=
  Node.Concat (Node.Star (Node.Symbol 'a' 1)) (Node.Symbol 'b' 2)

/-- The characters with no reserved meaning in the grammar. -/
def nonSpecial (c : Char) : Bool :=
  !(c = '(' || c = ')' || c = '|' || c = '*')

/-- The token segment between two cursor values. -/
def seg (tokens : List Char) (a b : ℕ) : List Char :=
  (tokens.drop a).take (b - a)

/-- Invariant of every parse function on success: the cursor moves
forward, the paren counter is restored, the symbol counter advances
once per parsed symbol, the symbol indices of the parsed node are
consecutive counter values, and the symbol values are exactly the
non-structural characters of the consumed token segment, in order. -/
def Inv (tokens : List Char) (s : PState) (node : Node) (s1 : PState) : Prop :=
  s.pos ≤ s1.pos ∧ s1.paren_count = s.paren_count ∧
    s1.symbol_count = s.symbol_count + node.syms.length ∧
    node.syms.map Prod.fst = List.range' s.symbol_count node.syms.length ∧
    node.syms.map Prod.snd = (seg tokens s.pos s1.pos).filter nonSpecial

/-- Exit condition of `_parse_concat`: it stops exactly at `|`, `)` or
the end of the input. -/
def ConcatExit (tokens : List Char) (s1 : PState) : Prop :=
  pnext tokens s1 = some '|' ∨ pnext tokens s1 = some ')' ∨
    pnext tokens s1 = none

/-- Exit condition of `_parse_alt`: it stops at `)` only inside a
group, otherwise at the end of the input. -/
def AltExit (tokens : List Char) (s1 : PState) : Prop :=
  (pnext tokens s1 = some ')' ∧ s1.paren_count ≠ 0) ∨ pnext tokens s1 = none

/-- Recursive disjointness of the `pos` maps of sibling subtrees. -/
def posDisjoint : Node → Prop
  | .Symbol _ _ => True
  | .Star c => posDisjoint c
  | .Concat l r => l.posDom ∩ r.posDom = ∅ ∧ posDisjoint l ∧ posDisjoint r
  | .Alt l r => l.posDom ∩ r.posDom = ∅ ∧ posDisjoint l ∧ posDisjoint r

/-- A nonempty run of the Glushkov (Position) automaton: reading `w`,
some first-position chain through the follow relation ends at `j`. -/
inductive PathTo (n : Node) : List Char → ℕ → Prop
  | start {a : Char} {j : ℕ} : j ∈ n.first → n.pos j = some a →
      PathTo n [a] j
  | step {w : List Char} {a : Char} {i j : ℕ} : PathTo n w i →
      (i, j) ∈ n.follow → n.pos j = some a → PathTo n (w ++ [a]) j

/-- An explicit position path matching a word: positions labelled by
the word's symbols, consecutive under the follow relation, starting in
`first`. -/
def IsPath (n : Node) (l : List ℕ) (w : List Char) : Prop :=
  l.length = w.length ∧ (∀ p ∈ l.zip w, n.pos p.1 = some p.2) ∧
    List.Chain' (fun i j => (i, j) ∈ n.follow) l ∧
    (∀ h ∈ l.head?, h ∈ n.first)

/-- Path-based acceptance of the Glushkov automaton. -/
def AcceptsVia (n : Node) (w : List Char) : Prop :=
  (w = [] ∧ 0 ∈ n.last_0) ∨ ∃ j, PathTo n w j ∧ j ∈ n.last

/-- The frontier of the Position automaton after reading a word. -/
def reachP (n : Node) (w : List Char) : Finset ℕ :=
  List.foldl (nfaStep (PositionAutomata.transition n)) {0} w

/-! ## Generic NFA/DFA bundles (`NFA`, `DFA` of `impl.py`)

The dataclasses of `impl.py` pair an alphabet with closures for the
initial state, finality and transition. `isEmpty` stands for the
`len(state) == 0` test of `DFA.accepts` and `DFA.all_states` (frozenset
cardinality for subset states, cardinality of the follow component for
`FollowState`s). -/

/-- The `NFA` dataclass of `impl.py`. -/
structure NFAb (σ : Type) : Type where
  symbols : List Char
  initial : Finset σ
  is_final : σ → Bool
  transition : σ → Char → Finset σ

/-- The `DFA` dataclass of `impl.py`. -/
structure DFAb (σ : Type) : Type where
  symbols : List Char
  initial : σ
  isEmpty : σ → Bool
  is_final : σ → Bool
  transition : σ → Char → σ

/-- `NFA.accepts` from `impl.py`. -/
def NFAb.accepts {σ : Type} [DecidableEq σ] (m : NFAb σ) (word : List Char) :
    Bool :=
  nfaAccepts m.is_final m.transition m.initial word

/-- `NFA.subset_determinise` from `impl.py`. -/
def NFAb.subset_determinise {σ : Type} [DecidableEq σ] (m : NFAb σ) :
    DFAb (Finset σ) where
  symbols := m.symbols
  initial := m.initial
  isEmpty := fun S => decide (S = ∅)
  is_final := fun S => decide (∃ s ∈ S, m.is_final s = true)
  transition := fun S a => S.biUnion (fun s => m.transition s a)

/-- `DFA.accepts` from `impl.py`. -/
def DFAb.accepts {σ : Type} (d : DFAb σ) (word : List Char) : Bool :=
  dfaAccepts d.isEmpty d.is_final d.transition d.initial word

/-- The admission test of `DFA.all_states` from `impl.py`: a discovered
state is kept when it is not the empty/dead state, unless it is final. -/
def DFAb.keep {σ : Type} (d : DFAb σ) (s : σ) : Bool :=
  !d.isEmpty s || d.is_final s

/-- One round of the breadth-first loop of `DFA.all_states`: the
transition results of the frontier over the alphabet that are new and
admitted. -/
def bfsRound {σ : Type} [DecidableEq σ] (symbols : List Char)
    (transition : σ → Char → σ) (keep : σ → Bool)
    (states toCheck : Finset σ) : Finset σ :=
  (toCheck.biUnion
      (fun s => (symbols.map (fun a => transition s a)).toFinset)).filter
    (fun q => q ∉ states ∧ keep q = true)

/-- The while loop of `DFA.all_states`, with fuel making it total; the
fuel used below is always sufficient for the loop to reach its
fixpoint. -/
def bfsLoop {σ : Type} [DecidableEq σ] (symbols : List Char)
    (transition : σ → Char → σ) (keep : σ → Bool) :
    ℕ → Finset σ → Finset σ → Finset σ
  | 0, states, _ => states
  | fuel + 1, states, toCheck =>
      if toCheck = ∅ then states
      else
        bfsLoop symbols transition keep fuel
          (states ∪ bfsRound symbols transition keep states toCheck)
          (bfsRound symbols transition keep states toCheck)

/-- `DFA.all_states` from `impl.py` (the `states is None` branch):
breadth-first exploration from the initial state. -/
def allStates {σ : Type} [DecidableEq σ] (symbols : List Char)
    (transition : σ → Char → σ) (keep : σ → Bool) (initial : σ)
    (fuel : ℕ) : Finset σ :=
  bfsLoop symbols transition keep fuel {initial} {initial}

/-- `DFA.all_states` on a bundle. -/
def DFAb.all_states {σ : Type} [DecidableEq σ] (d : DFAb σ) (fuel : ℕ) :
    Finset σ :=
  allStates d.symbols d.transition d.keep d.initial fuel

/-- `DFA.reverse` from `impl.py`: initial states are the finals among
`all_states`, finality is being the old initial state, and transitions
are pre-images computed by scanning `all_states`. -/
def DFAb.reverse {σ : Type} [DecidableEq σ] (d : DFAb σ) (fuel : ℕ) :
    NFAb σ where
  symbols := d.symbols
  initial := (d.all_states fuel).filter (fun s => d.is_final s = true)
  is_final := fun s => decide (s = d.initial)
  transition := fun q a =>
    (d.all_states fuel).filter (fun s => d.transition s a = q)

/-- The set of states the breadth-first loop can discover: the closure
of the initial state under admitted transitions over the alphabet. -/
inductive BfsReach {σ : Type} (symbols : List Char)
    (transition : σ → Char → σ) (keep : σ → Bool) (initial : σ) : σ → Prop
  | init : BfsReach symbols transition keep initial initial
  | step {s : σ} {a : Char} : BfsReach symbols transition keep initial s →
      a ∈ symbols → keep (transition s a) = true →
      BfsReach symbols transition keep initial (transition s a)

/-! ## The four construction bundles and their minimisation -/

/-- `PositionAutomata(n).nfa()` from `impl.py` as a bundle. -/
def PositionAutomata.nfa (n : Node) : NFAb ℕ where
  symbols := n.symbolsL
  initial := {0}
  is_final := PositionAutomata.is_final n
  transition := PositionAutomata.transition n

/-- `FollowAutomata(n).nfa()` from `impl.py` as a bundle. -/
def FollowAutomata.nfa (n : Node) : NFAb FollowState where
  symbols := n.symbolsL
  initial := {FollowAutomata.follow_state n 0}
  is_final := fun fs => fs.final
  transition := FollowAutomata.transition n

/-- `McNaughtonYamadaAutomata(n).dfa()` from `impl.py` as a bundle. -/
def McNaughtonYamadaAutomata.dfa (n : Node) : DFAb (Finset ℕ) where
  symbols := n.symbolsL
  initial := {0}
  isEmpty := fun S => decide (S = ∅)
  is_final := McNaughtonYamadaAutomata.is_final n
  transition := McNaughtonYamadaAutomata.transition n

/-- `MarkBeforeAutomata(n).dfa()` from `impl.py` as a bundle. -/
def MarkBeforeAutomata.dfa (n : Node) : DFAb FollowState where
  symbols := n.symbolsL
  initial := MarkBeforeAutomata.initial n
  isEmpty := fun fs => decide (fs.follow = ∅)
  is_final := fun fs => fs.final
  transition := MarkBeforeAutomata.transition n

/-- A finite universe containing every subset state over the positions
(with the synthetic `0`). -/
def posUniverse (n : Node) : Finset (Finset ℕ) :=
  (n.posDom ∪ {0}).powerset

/-- A finite universe containing every Follow-automaton state. -/
def folStatesU (n : Node) : Finset FollowState :=
  insert (FollowAutomata.follow_state n 0)
    (n.posDom.image (FollowAutomata.follow_state n))

/-- A finite universe containing every Mark-Before state. -/
def mbUniverse (n : Node) : Finset FollowState :=
  insert (MarkBeforeAutomata.initial n)
    (n.posDom.powerset.biUnion (fun f => {⟨f, true⟩, ⟨f, false⟩}))

/-- The explored state set of the determinised Position automaton. -/
def PositionAutomata.detStates (n : Node) : Finset (Finset ℕ) :=
  (PositionAutomata.nfa n).subset_determinise.all_states
    ((posUniverse n).card + 1)

/-- `PositionAutomata.minimize` from `impl.py`: build on the reversed
AST, determinise, reverse, determinise. -/
def PositionAutomata.minimize (n : Node) : DFAb (Finset (Finset ℕ)) :=
  ((PositionAutomata.nfa n.reverse).subset_determinise.reverse
    ((posUniverse n.reverse).card + 1)).subset_determinise

/-- The explored state set of `PositionAutomata.minimize`. -/
def PositionAutomata.minStates (n : Node) : Finset (Finset (Finset ℕ)) :=
  (PositionAutomata.minimize n).all_states
    ((PositionAutomata.detStates n.reverse).powerset.card + 1)

/-- The explored state set of the determinised Follow automaton. -/
def FollowAutomata.detStates (n : Node) : Finset (Finset FollowState) :=
  (FollowAutomata.nfa n).subset_determinise.all_states
    (((folStatesU n).powerset).card + 1)

/-- `FollowAutomata.minimize` from `impl.py`. -/
def FollowAutomata.minimize (n : Node) : DFAb (Finset (Finset FollowState)) :=
  ((FollowAutomata.nfa n.reverse).subset_determinise.reverse
    (((folStatesU n.reverse).powerset).card + 1)).subset_determinise

/-- The explored state set of `FollowAutomata.minimize`. -/
def FollowAutomata.minStates (n : Node) : Finset (Finset (Finset FollowState)) :=
  (FollowAutomata.minimize n).all_states
    ((FollowAutomata.detStates n.reverse).powerset.card + 1)

/-- The explored state set of the McNaughton-Yamada DFA. -/
def McNaughtonYamadaAutomata.dfaStates (n : Node) : Finset (Finset ℕ) :=
  (McNaughtonYamadaAutomata.dfa n).all_states ((posUniverse n).card + 1)

/-- `McNaughtonYamadaAutomata.minimize` from `impl.py`: build on the
reversed AST, reverse the DFA, determinise. -/
def McNaughtonYamadaAutomata.minimize (n : Node) : DFAb (Finset (Finset ℕ)) :=
  ((McNaughtonYamadaAutomata.dfa n.reverse).reverse
    ((posUniverse n.reverse).card + 1)).subset_determinise

/-- The explored state set of `McNaughtonYamadaAutomata.minimize`. -/
def McNaughtonYamadaAutomata.minStates (n : Node) :
    Finset (Finset (Finset ℕ)) :=
  (McNaughtonYamadaAutomata.minimize n).all_states
    ((McNaughtonYamadaAutomata.dfaStates n.reverse).powerset.card + 1)

/-- The explored state set of the Mark-Before DFA. -/
def MarkBeforeAutomata.dfaStates (n : Node) : Finset FollowState :=
  (MarkBeforeAutomata.dfa n).all_states ((mbUniverse n).card + 1)

/-- `MarkBeforeAutomata.minimize` from `impl.py`. -/
def MarkBeforeAutomata.minimize (n : Node) : DFAb (Finset FollowState) :=
  ((MarkBeforeAutomata.dfa n.reverse).reverse
    ((mbUniverse n.reverse).card + 1)).subset_determinise

/-- The explored state set of `MarkBeforeAutomata.minimize`. -/
def MarkBeforeAutomata.minStates (n : Node) : Finset (Finset FollowState) :=
  (MarkBeforeAutomata.minimize n).all_states
    ((MarkBeforeAutomata.dfaStates n.reverse).powerset.card + 1)

/-! ## Acceptance as a fold

Both accept loops short-circuit on an empty frontier; since the empty
frontier is absorbing for every transition function of this program,
each loop agrees with the plain fold of its step function. -/

theorem foldl_nfaStep_empty {σ : Type} [DecidableEq σ]
    (transition : σ → Char → Finset σ) (word : List Char) :
    List.foldl (nfaStep transition) ∅ word = ∅ := by
  induction word with
  | nil => rfl
  | cons a w ih => simpa [nfaStep] using ih

theorem nfaAccepts_eq_fold {σ : Type} [DecidableEq σ]
    (is_final : σ → Bool) (transition : σ → Char → Finset σ)
    (states : Finset σ) (word : List Char) :
    nfaAccepts is_final transition states word =
      decide (∃ s ∈ List.foldl (nfaStep transition) states word, is_final s) := by
  induction word generalizing states with
  | nil => rfl
  | cons a w ih =>
      by_cases h : states = (∅ : Finset σ)
      · subst h
        simp [nfaAccepts, List.foldl, foldl_nfaStep_empty,
          show (nfaStep transition ∅ a) = ∅ by simp [nfaStep]]
      · simp only [nfaAccepts, if_neg h, List.foldl]
        exact ih _

theorem foldl_dead {σ : Type} (isEmpty is_final : σ → Bool)
    (transition : σ → Char → σ)
    (habs : ∀ s a, isEmpty s = true →
      isEmpty (transition s a) = true ∧ is_final (transition s a) = false)
    (word : List Char) (s : σ) (he : isEmpty s = true) (hf : is_final s = false) :
    is_final (List.foldl transition s word) = false := by
  induction word generalizing s with
  | nil => exact hf
  | cons a w ih => exact ih _ (habs s a he).1 (habs s a he).2

theorem dfaAccepts_eq_fold {σ : Type} (isEmpty is_final : σ → Bool)
    (transition : σ → Char → σ)
    (habs : ∀ s a, isEmpty s = true →
      isEmpty (transition s a) = true ∧ is_final (transition s a) = false)
    (s : σ) (word : List Char) :
    dfaAccepts isEmpty is_final transition s word =
      is_final (List.foldl transition s word) := by
  induction word generalizing s with
  | nil => rfl
  | cons a w ih =>
      by_cases h : isEmpty s = true
      · simp only [dfaAccepts, if_pos h, List.foldl]
        exact (foldl_dead isEmpty is_final transition habs w _
          (habs s a h).1 (habs s a h).2).symm
      · simp only [dfaAccepts, if_neg h, List.foldl]
        exact ih _

/-! ## Cross-engine equivalence (lemmas for C1) -/

theorem nfaStep_position_eq_mcnaughton (n : Node) (S : Finset ℕ) (a : Char) :
    nfaStep (PositionAutomata.transition n) S a =
      McNaughtonYamadaAutomata.transition n S a := by
  simp only [nfaStep, PositionAutomata.transition,
    McNaughtonYamadaAutomata.transition, FromNode.select, FromNode.follow_set]
  exact (Finset.filter_biUnion S (FromNode.follow_i n) _).symm

theorem position_eq_mcnaughton (n : Node) (w : List Char) :
    PositionAutomata.accepts n w = McNaughtonYamadaAutomata.accepts n w := by
  have habs : ∀ (s : Finset ℕ) (a : Char), decide (s = ∅) = true →
      decide (McNaughtonYamadaAutomata.transition n s a = ∅) = true ∧
        McNaughtonYamadaAutomata.is_final n (McNaughtonYamadaAutomata.transition n s a) = false := by
    intro s a hs
    have : s = ∅ := by simpa using hs
    subst this
    constructor
    · simp [McNaughtonYamadaAutomata.transition, FromNode.select,
        FromNode.follow_set]
    · simp [McNaughtonYamadaAutomata.transition, McNaughtonYamadaAutomata.is_final,
        FromNode.select, FromNode.follow_set]
  rw [PositionAutomata.accepts, nfaAccepts_eq_fold,
    McNaughtonYamadaAutomata.accepts, dfaAccepts_eq_fold _ _ _ habs]
  have hstep : nfaStep (PositionAutomata.transition n) =
      McNaughtonYamadaAutomata.transition n :=
    funext fun S => funext fun a => nfaStep_position_eq_mcnaughton n S a
  rw [hstep]
  simp [McNaughtonYamadaAutomata.is_final, PositionAutomata.is_final]

theorem nfaStep_follow_image (n : Node) (T : Finset ℕ) (a : Char) :
    nfaStep (FollowAutomata.transition n) (T.image (FollowAutomata.follow_state n)) a =
      (nfaStep (PositionAutomata.transition n) T a).image
        (FollowAutomata.follow_state n) := by
  simp only [nfaStep, FollowAutomata.transition, PositionAutomata.transition]
  rw [Finset.image_biUnion, Finset.biUnion_image]
  rfl

theorem follow_fold_image (n : Node) (w : List Char) (T : Finset ℕ) :
    List.foldl (nfaStep (FollowAutomata.transition n))
        (T.image (FollowAutomata.follow_state n)) w =
      (List.foldl (nfaStep (PositionAutomata.transition n)) T w).image
        (FollowAutomata.follow_state n) := by
  induction w generalizing T with
  | nil => rfl
  | cons a w ih => simp only [List.foldl, nfaStep_follow_image, ih]

theorem follow_eq_position (n : Node) (w : List Char) :
    FollowAutomata.accepts n w = PositionAutomata.accepts n w := by
  rw [FollowAutomata.accepts, nfaAccepts_eq_fold,
    PositionAutomata.accepts, nfaAccepts_eq_fold]
  have hinit : ({FollowAutomata.follow_state n 0} : Finset FollowState) =
      ({0} : Finset ℕ).image (FollowAutomata.follow_state n) := by
    simp
  rw [hinit, follow_fold_image]
  simp [FollowAutomata.follow_state, PositionAutomata.is_final]

theorem toMB_initial (n : Node) : MarkBeforeAutomata.initial n = toMB n {0} := by
  simp only [MarkBeforeAutomata.initial, toMB, FromNode.follow_set,
    Finset.singleton_biUnion, FromNode.follow_i, if_pos rfl,
    MarkBeforeAutomata.set_finality]
  simp

theorem toMB_transition (n : Node) (S : Finset ℕ) (a : Char) :
    MarkBeforeAutomata.transition n (toMB n S) a =
      toMB n (McNaughtonYamadaAutomata.transition n S a) := rfl

theorem toMB_fold (n : Node) (w : List Char) (S : Finset ℕ) :
    List.foldl (MarkBeforeAutomata.transition n) (toMB n S) w =
      toMB n (List.foldl (McNaughtonYamadaAutomata.transition n) S w) := by
  induction w generalizing S with
  | nil => rfl
  | cons a w ih => simp only [List.foldl, toMB_transition, ih]

theorem markbefore_eq_mcnaughton (n : Node) (w : List Char) :
    MarkBeforeAutomata.accepts n w = McNaughtonYamadaAutomata.accepts n w := by
  have habsMB : ∀ (fs : FollowState) (a : Char), decide (fs.follow = ∅) = true →
      decide ((MarkBeforeAutomata.transition n fs a).follow = ∅) = true ∧
        (MarkBeforeAutomata.transition n fs a).final = false := by
    intro fs a hfs
    have h : fs.follow = ∅ := by simpa using hfs
    constructor
    · simp [MarkBeforeAutomata.transition, FromNode.select, h,
        FromNode.follow_set]
    · simp [MarkBeforeAutomata.transition, FromNode.select, h,
        MarkBeforeAutomata.set_finality]
  have habsMY : ∀ (s : Finset ℕ) (a : Char), decide (s = ∅) = true →
      decide (McNaughtonYamadaAutomata.transition n s a = ∅) = true ∧
        McNaughtonYamadaAutomata.is_final n (McNaughtonYamadaAutomata.transition n s a) = false := by
    intro s a hs
    have : s = ∅ := by simpa using hs
    subst this
    constructor
    · simp [McNaughtonYamadaAutomata.transition, FromNode.select,
        FromNode.follow_set]
    · simp [McNaughtonYamadaAutomata.transition, McNaughtonYamadaAutomata.is_final,
        FromNode.select, FromNode.follow_set]
  rw [MarkBeforeAutomata.accepts, dfaAccepts_eq_fold _ _ _ habsMB,
    McNaughtonYamadaAutomata.accepts, dfaAccepts_eq_fold _ _ _ habsMY,
    toMB_initial, toMB_fold]
  simp [toMB, MarkBeforeAutomata.set_finality, McNaughtonYamadaAutomata.is_final]

/-- C1: for every pattern string that parses successfully into an AST
`n` and for every word `w`, the Position NFA, the Follow NFA, the
McNaughton-Yamada DFA and the Mark-Before DFA built from `n` all return
the same boolean from `accepts(w)`. -/
theorem c1_cross_engine_equivalence (p : String) (n : Node)
    (_h : parse p = some (Except.ok n)) (w : List Char) :
    PositionAutomata.accepts n w = FollowAutomata.accepts n w ∧
      PositionAutomata.accepts n w = McNaughtonYamadaAutomata.accepts n w ∧
      PositionAutomata.accepts n w = MarkBeforeAutomata.accepts n w :=
  ⟨(follow_eq_position n w).symm, position_eq_mcnaughton n w,
    (position_eq_mcnaughton n w).trans (markbefore_eq_mcnaughton n w).symm⟩

/-- Witness for C1 at the pattern `a*b` and the word `aab`. -/
theorem c1_cross_engine_equivalence_witness :
    parse "a*b" = some (Except.ok exampleAStarB) ∧
      (PositionAutomata.accepts exampleAStarB ['a', 'a', 'b'] =
          FollowAutomata.accepts exampleAStarB ['a', 'a', 'b'] ∧
        PositionAutomata.accepts exampleAStarB ['a', 'a', 'b'] =
          McNaughtonYamadaAutomata.accepts exampleAStarB ['a', 'a', 'b'] ∧
        PositionAutomata.accepts exampleAStarB ['a', 'a', 'b'] =
          MarkBeforeAutomata.accepts exampleAStarB ['a', 'a', 'b']) :=
  ⟨by decide, c1_cross_engine_equivalence "a*b" exampleAStarB (by decide)
    ['a', 'a', 'b']⟩

/-- C2: `automata/automata.py`'s `PositionAutomata.transition` does not
filter the successors of the synthetic state `0` by the consumed
symbol: on the parsed pattern `b` it returns the whole `first` set
`{1}` for the symbol `a`, while the claim's equation
`{j ∈ first : pos[j] = a}` gives `∅` (as `impl.py`'s transition does),
and consequently the legacy `accepts` wrongly accepts the word `a`. -/
theorem c2_position_transition_unfiltered :
    parse "b" = some (Except.ok (Node.Symbol 'b' 1)) ∧
      AutomataPy.transition (Node.Symbol 'b' 1) 0 'a' = {1} ∧
      FromNode.select (Node.Symbol 'b' 1) (Node.Symbol 'b' 1).first 'a' = ∅ ∧
      PositionAutomata.transition (Node.Symbol 'b' 1) 0 'a' = ∅ ∧
      AutomataPy.accepts (Node.Symbol 'b' 1) {0} ['a'] = true ∧
      PositionAutomata.accepts (Node.Symbol 'b' 1) ['a'] = false := by
  refine ⟨by decide, by decide, by decide, by decide, by decide, by decide⟩

/-- The two transition equations of C2 do hold of `impl.py`'s
`PositionAutomata.transition` (for every node, state and symbol). -/
theorem position_transition_spec (n : Node) (s : ℕ) (a : Char) :
    (s = 0 → PositionAutomata.transition n s a =
      n.first.filter (fun j => n.pos j = some a)) ∧
    (s ≠ 0 → PositionAutomata.transition n s a =
      (n.follow.filter (fun q => q.1 = s ∧ n.pos q.2 = some a)).image Prod.snd) := by
  constructor
  · intro hs
    subst hs
    simp [PositionAutomata.transition, FromNode.select, FromNode.follow_i]
  · intro hs
    simp only [PositionAutomata.transition, FromNode.select, FromNode.follow_i,
      if_neg hs]
    ext j
    simp only [Finset.mem_filter, Finset.mem_image]
    constructor
    · rintro ⟨⟨⟨i, j2⟩, ⟨hmem, hfst⟩, rfl⟩, hpos⟩
      exact ⟨(i, j2), ⟨hmem, hfst, hpos⟩, rfl⟩
    · rintro ⟨⟨i, j2⟩, ⟨hmem, hfst, hpos⟩, rfl⟩
      exact ⟨⟨(i, j2), ⟨hmem, hfst⟩, rfl⟩, hpos⟩

/-- Witness for the `position_transition_spec` lemma at concrete inputs. -/
theorem position_transition_spec_witness :
    (0 ≠ 0 → PositionAutomata.transition exampleAStarB 0 'a' =
      (exampleAStarB.follow.filter
        (fun q => q.1 = 0 ∧ exampleAStarB.pos q.2 = some 'a')).image Prod.snd) ∧
    PositionAutomata.transition exampleAStarB 0 'a' =
      exampleAStarB.first.filter (fun j => exampleAStarB.pos j = some 'a') :=
  ⟨(position_transition_spec exampleAStarB 0 'a').2,
    (position_transition_spec exampleAStarB 0 'a').1 rfl⟩

/-- C3 counterexample: `match_re` with the empty pattern does invoke the
parser and propagates its `EmptyInput` error instead of returning
`word == ""`: `match_re("", "")` is a parse error, not `True`. -/
theorem c3_match_empty_pattern_counterexample :
    AutomataPy.match_re "" "" =
        some (Except.error (ParseError.emptyInput 1)) ∧
      AutomataPy.match_re "" "" ≠ some (Except.ok true) := by
  refine ⟨by decide, by decide⟩

/-- C3 (amended): `match_re` has no empty-pattern special case; for
every word `w` it parses the empty pattern, which fails with
`EmptyInput`, and the same error is what parsing the empty string
directly produces. -/
theorem c3_match_empty_pattern_amended (w : String) :
    AutomataPy.match_re "" w = some (Except.error (ParseError.emptyInput 1)) ∧
      parse "" = some (Except.error (ParseError.emptyInput 1)) := by
  exact ⟨rfl, rfl⟩

/-- C6: AST reversal is an involution: `n.reverse().reverse() == n`
under structural equality, for every AST. -/
theorem c6_reverse_involution (n : Node) : n.reverse.reverse = n := by
  induction n with
  | Symbol v k => rfl
  | Star c ih => simp [Node.reverse, ih]
  | Concat l r ihl ihr => simp [Node.reverse, ihl, ihr]
  | Alt l r ihl ihr => simp [Node.reverse, ihl, ihr]

/-! ## Parser invariants (lemmas for C7) -/

theorem take_one_of_getElem {l : List Char} {c : Char} (h : l[0]? = some c) :
    l.take 1 = [c] := by
  cases l with
  | nil => simp at h
  | cons x xs =>
      simp only [List.getElem?_cons_zero, Option.some.injEq] at h
      simp [h]

theorem seg_single (tokens : List Char) (a : ℕ) (c : Char)
    (h : tokens[a]? = some c) : seg tokens a (a + 1) = [c] := by
  have h0 : (tokens.drop a)[0]? = some c := by
    rw [List.getElem?_drop]
    simpa using h
  unfold seg
  rw [show a + 1 - a = 1 by omega]
  exact take_one_of_getElem h0

theorem seg_append (tokens : List Char) {a b c : ℕ} (h1 : a ≤ b) (h2 : b ≤ c) :
    seg tokens a b ++ seg tokens b c = seg tokens a c := by
  unfold seg
  rw [show c - a = (b - a) + (c - b) by omega, List.take_add, List.drop_drop,
    show a + (b - a) = b by omega]

theorem parser_invariant (fuel : ℕ) : ∀ (tokens : List Char) (s : PState),
    (∀ node s1, parseAtom fuel tokens s = .ok node s1 → Inv tokens s node s1) ∧
    (∀ node s1, parseStar fuel tokens s = .ok node s1 → Inv tokens s node s1) ∧
    (∀ node s1, parseConcat fuel tokens s = .ok node s1 →
      Inv tokens s node s1 ∧ ConcatExit tokens s1) ∧
    (∀ node s1, parseAlt fuel tokens s = .ok node s1 →
      Inv tokens s node s1 ∧ AltExit tokens s1) := by
  induction fuel with
  | zero =>
      intro tokens s
      refine ⟨?_, ?_, ?_, ?_⟩ <;> intro node s1 h <;>
        simp [parseAtom, parseStar, parseConcat, parseAlt] at h
  | succ fuel ih =>
      intro tokens s
      have ihAtom := fun s0 => (ih tokens s0).1
      have ihStar := fun s0 => (ih tokens s0).2.1
      have ihConcat := fun s0 => (ih tokens s0).2.2.1
      have ihAlt := fun s0 => (ih tokens s0).2.2.2
      refine ⟨?_, ?_, ?_, ?_⟩
      · -- parseAtom
        intro node s1 H
        simp only [parseAtom] at H
        split at H
        · -- group branch: pnext s = some '('
          rename_i hpar
          split at H
          · -- parseAlt returned ok
            rename_i alt s3 halt
            split at H
            · -- close paren present
              rename_i hclose
              simp only [PResult.ok.injEq] at H
              obtain ⟨rfl, rfl⟩ := H
              obtain ⟨⟨hle, hpc, hsc, hfst, hsnd⟩, _⟩ := ihAlt _ _ _ halt
              refine ⟨by simp at hle ⊢; omega, by simp at hpc ⊢; omega,
                by simpa using hsc, by simpa using hfst, ?_⟩
              have e1 : seg tokens s.pos (s.pos + 1) = ['('] :=
                seg_single tokens s.pos '(' (by simpa [pnext] using hpar)
              have e3 : seg tokens s3.pos (s3.pos + 1) = [')'] :=
                seg_single tokens s3.pos ')' (by simpa [pnext] using hclose)
              have hle' : s.pos + 1 ≤ s3.pos := by simpa using hle
              have glue1 : seg tokens s.pos (s.pos + 1) ++
                  seg tokens (s.pos + 1) (s3.pos + 1) =
                  seg tokens s.pos (s3.pos + 1) :=
                seg_append tokens (by omega) (by omega)
              have glue2 : seg tokens (s.pos + 1) s3.pos ++
                  seg tokens s3.pos (s3.pos + 1) =
                  seg tokens (s.pos + 1) (s3.pos + 1) :=
                seg_append tokens (by omega) (by omega)
              calc alt.syms.map Prod.snd
                  = (seg tokens (s.pos + 1) s3.pos).filter nonSpecial := by
                    simpa using hsnd
                _ = (seg tokens s.pos (s3.pos + 1)).filter nonSpecial := by
                    rw [← glue1, ← glue2, e1, e3]
                    simp [nonSpecial]
            · simp at H
          · simp at H
          · simp at H
        · -- non-group branch
          rename_i hnotpar
          split at H
          · -- some c
            rename_i c hc
            split at H
            · simp at H
            · rename_i hres
              simp only [PResult.ok.injEq] at H
              obtain ⟨rfl, rfl⟩ := H
              have hcs : nonSpecial c = true := by
                have h1 : ¬c = '(' := by
                  intro h
                  exact hnotpar (by simp [hc, h])
                simp only [reservedChar, Bool.or_eq_true, decide_eq_true_eq,
                  not_or] at hres
                simp [nonSpecial, h1, hres]
              refine ⟨by simp, by simp, by simp [Node.syms], ?_, ?_⟩
              · simp [Node.syms]
              · have e1 : seg tokens s.pos (s.pos + 1) = [c] :=
                  seg_single tokens s.pos c (by simpa [pnext] using hc)
              -- the consumed segment is the single symbol character
                simp [Node.syms, e1, hcs]
          · simp at H
      · -- parseStar
        intro node s1 H
        simp only [parseStar] at H
        split at H
        · rename_i atom s2 hatom
          obtain ⟨hle, hpc, hsc, hfst, hsnd⟩ := ihAtom _ _ _ hatom
          split at H
          · rename_i hstar
            simp only [PResult.ok.injEq] at H
            obtain ⟨rfl, rfl⟩ := H
            refine ⟨by simp at hle ⊢; omega, by simpa using hpc,
              by simpa [Node.syms] using hsc, by simpa [Node.syms] using hfst, ?_⟩
            have e2 : seg tokens s2.pos (s2.pos + 1) = ['*'] :=
              seg_single tokens s2.pos '*' (by simpa [pnext] using hstar)
            have glue : seg tokens s.pos s2.pos ++
                seg tokens s2.pos (s2.pos + 1) = seg tokens s.pos (s2.pos + 1) :=
              seg_append tokens hle (by omega)
            calc (Node.Star atom).syms.map Prod.snd
                = (seg tokens s.pos s2.pos).filter nonSpecial := hsnd
              _ = (seg tokens s.pos (s2.pos + 1)).filter nonSpecial := by
                  rw [← glue, e2]
                  simp [nonSpecial]
          · simp only [PResult.ok.injEq] at H
            obtain ⟨rfl, rfl⟩ := H
            exact ⟨hle, hpc, hsc, hfst, hsnd⟩
        · simp at H
        · simp at H
      · -- parseConcat
        intro node s1 H
        simp only [parseConcat] at H
        split at H
        · rename_i star s2 hstar
          obtain ⟨hle, hpc, hsc, hfst, hsnd⟩ := ihStar _ _ _ hstar
          split at H
          · rename_i hexit
            simp only [PResult.ok.injEq] at H
            obtain ⟨rfl, rfl⟩ := H
            exact ⟨⟨hle, hpc, hsc, hfst, hsnd⟩, hexit⟩
          · rename_i hnoexit
            split at H
            · rename_i concat s3 hconcat
              obtain ⟨⟨hle2, hpc2, hsc2, hfst2, hsnd2⟩, hexit2⟩ :=
                ihConcat _ _ _ hconcat
              simp only [PResult.ok.injEq] at H
              obtain ⟨rfl, rfl⟩ := H
              refine ⟨⟨by omega, by omega, ?_, ?_, ?_⟩, hexit2⟩
              · simp [Node.syms]; omega
              · simp only [Node.syms, List.map_append, hfst, hfst2, hsc,
                  List.length_append]
                rw [List.range'_append_1]
                congr 1
                omega
              · simp only [Node.syms, List.map_append, hsnd, hsnd2,
                  ← List.filter_append, seg_append tokens hle hle2]
            · simp at H
            · simp at H
        · simp at H
        · simp at H
      · -- parseAlt
        intro node s1 H
        simp only [parseAlt] at H
        split at H
        · rename_i concat s2 hconcat
          obtain ⟨⟨hle, hpc, hsc, hfst, hsnd⟩, hexit⟩ := ihConcat _ _ _ hconcat
          split at H
          · simp at H
          · rename_i hnostray
            split at H
            · rename_i hbar
              split at H
              · rename_i alt s3 halt
                obtain ⟨⟨hle2, hpc2, hsc2, hfst2, hsnd2⟩, hexit2⟩ :=
                  ihAlt _ _ _ halt
                simp only [PResult.ok.injEq] at H
                obtain ⟨rfl, rfl⟩ := H
                have hle2' : s2.pos + 1 ≤ s3.pos := by simpa using hle2
                have hsc2' : s3.symbol_count = s2.symbol_count + alt.syms.length := by
                  simpa using hsc2
                have hfst2' : alt.syms.map Prod.fst =
                    List.range' (s.symbol_count + concat.syms.length)
                      alt.syms.length := by
                  have h := hfst2
                  simp only at h
                  rw [hsc] at h
                  exact h
                have hsnd2' : alt.syms.map Prod.snd =
                    (seg tokens (s2.pos + 1) s3.pos).filter nonSpecial := by
                  simpa using hsnd2
                refine ⟨⟨by omega, by simp at hpc2 ⊢; omega, ?_, ?_, ?_⟩,
                  hexit2⟩
                · simp only [Node.syms, List.length_append]
                  omega
                · calc (Node.Alt concat alt).syms.map Prod.fst
                      = List.range' s.symbol_count concat.syms.length ++
                        List.range' (s.symbol_count + concat.syms.length)
                          alt.syms.length := by
                        simp only [Node.syms, List.map_append, hfst, hfst2']
                    _ = List.range' s.symbol_count
                          (alt.syms.length + concat.syms.length) :=
                        List.range'_append_1 _ _ _
                    _ = List.range' s.symbol_count
                          (Node.Alt concat alt).syms.length := by
                        simp only [Node.syms, List.length_append]
                        congr 1
                        omega
                · have e2 : seg tokens s2.pos (s2.pos + 1) = ['|'] :=
                    seg_single tokens s2.pos '|' (by simpa [pnext] using hbar)
                  have glue1 : seg tokens s.pos s2.pos ++
                      seg tokens s2.pos s3.pos = seg tokens s.pos s3.pos :=
                    seg_append tokens hle (by omega)
                  have glue2 : seg tokens s2.pos (s2.pos + 1) ++
                      seg tokens (s2.pos + 1) s3.pos =
                      seg tokens s2.pos s3.pos :=
                    seg_append tokens (by omega) (by omega)
                  have hbarfilter : nonSpecial '|' = false := by decide
                  calc (Node.Alt concat alt).syms.map Prod.snd
                      = (seg tokens s.pos s2.pos).filter nonSpecial ++
                        (seg tokens (s2.pos + 1) s3.pos).filter nonSpecial := by
                        simp only [Node.syms, List.map_append, hsnd, hsnd2']
                    _ = (seg tokens s.pos s2.pos ++
                          (seg tokens s2.pos (s2.pos + 1) ++
                            seg tokens (s2.pos + 1) s3.pos)).filter nonSpecial := by
                        simp [List.filter_append, e2, hbarfilter]
                    _ = (seg tokens s.pos s3.pos).filter nonSpecial := by
                        rw [glue2, glue1]
              · simp at H
              · simp at H
            · rename_i hnobar
              simp only [PResult.ok.injEq] at H
              obtain ⟨rfl, rfl⟩ := H
              refine ⟨⟨hle, hpc, hsc, hfst, hsnd⟩, ?_⟩
              rcases hexit with h | h | h
              · exact absurd h hnobar
              · left
                refine ⟨h, ?_⟩
                intro hpc0
                exact hnostray ⟨h, hpc0⟩
              · right
                exact h
        · simp at H
        · simp at H

/-- A successful top-level parse comes from a successful `_parse_alt`
run from the initial parser state. -/
theorem parse_ok_elim {p : String} {n : Node}
    (h : parse p = some (Except.ok n)) :
    ∃ s1, parseAlt (4 * p.length + 8) p.toList ⟨0, 1, 0⟩ = .ok n s1 := by
  unfold parse at h
  split at h
  · rename_i node s1 heq
    simp only [Option.some.injEq, Except.ok.injEq] at h
    exact ⟨s1, by rw [heq, h]⟩
  · simp at h
  · simp at h

/-- The consequences of the parser invariant at the top level: the
symbol indices are `1..N` in left-to-right textual order and the symbol
values are the non-structural characters of the pattern, in order. -/
theorem parse_ok_syms {p : String} {n : Node}
    (h : parse p = some (Except.ok n)) :
    n.syms.map Prod.fst = List.range' 1 n.syms.length ∧
      n.syms.map Prod.snd = p.toList.filter nonSpecial := by
  obtain ⟨s1, halt⟩ := parse_ok_elim h
  obtain ⟨⟨hle, hpc, hsc, hfst, hsnd⟩, hexit⟩ :=
    ((parser_invariant (4 * p.length + 8) p.toList ⟨0, 1, 0⟩).2.2.2) n s1 halt
  refine ⟨hfst, ?_⟩
  have hnone : pnext p.toList s1 = none := by
    rcases hexit with ⟨_, hpc0⟩ | h2
    · exact absurd hpc hpc0
    · exact h2
  have hlen : p.toList.length ≤ s1.pos := by
    by_contra hlt
    push_neg at hlt
    rw [pnext, List.getElem?_eq_getElem hlt] at hnone
    simp at hnone
  have hseg : seg p.toList 0 s1.pos = p.toList := by
    unfold seg
    simp only [List.drop_zero, Nat.sub_zero]
    exact List.take_of_length_le hlen
  rw [hsnd]
  rw [hseg]

/-- `pos` keys are exactly the in-order symbol indices. -/
theorem posDom_eq_syms_keys (n : Node) :
    n.posDom = (n.syms.map Prod.fst).toFinset := by
  induction n with
  | Symbol v k => simp [Node.posDom, Node.syms]
  | Star c ih => simpa [Node.posDom, Node.syms] using ih
  | Concat l r ihl ihr => simp [Node.posDom, Node.syms, ihl, ihr]
  | Alt l r ihl ihr => simp [Node.posDom, Node.syms, ihl, ihr]

/-- Sibling `pos` maps are disjoint as soon as the symbol indices of
the whole tree are distinct. -/
theorem posDisjoint_of_nodup :
    ∀ n : Node, (n.syms.map Prod.fst).Nodup → posDisjoint n := by
  intro n
  induction n with
  | Symbol v k => intro _; trivial
  | Star c ih => exact fun h => ih (by simpa [Node.syms] using h)
  | Concat l r ihl ihr =>
      intro h
      rw [Node.syms, List.map_append, List.nodup_append] at h
      obtain ⟨hl, hr, hdisj⟩ := h
      refine ⟨?_, ihl hl, ihr hr⟩
      rw [Finset.eq_empty_iff_forall_not_mem]
      intro i hi
      rw [Finset.mem_inter, posDom_eq_syms_keys, posDom_eq_syms_keys,
        List.mem_toFinset, List.mem_toFinset] at hi
      exact hdisj hi.1 hi.2
  | Alt l r ihl ihr =>
      intro h
      rw [Node.syms, List.map_append, List.nodup_append] at h
      obtain ⟨hl, hr, hdisj⟩ := h
      refine ⟨?_, ihl hl, ihr hr⟩
      rw [Finset.eq_empty_iff_forall_not_mem]
      intro i hi
      rw [Finset.mem_inter, posDom_eq_syms_keys, posDom_eq_syms_keys,
        List.mem_toFinset, List.mem_toFinset] at hi
      exact hdisj hi.1 hi.2

/-- C7: for a successfully parsed pattern with `N` symbol occurrences,
the `pos` domain is exactly `{1..N}` with index `i` assigned to the
`i`-th symbol occurrence in left-to-right textual order (the in-order
index list is `1..N` and the in-order value list is the pattern's
non-structural characters), and the `pos` maps of sibling subtrees are
disjoint. -/
theorem c7_position_completeness (p : String) (n : Node)
    (h : parse p = some (Except.ok n)) :
    n.syms.map Prod.fst =
        List.range' 1 (p.toList.filter nonSpecial).length ∧
      n.syms.map Prod.snd = p.toList.filter nonSpecial ∧
      (∀ i, i ∈ n.posDom ↔
        1 ≤ i ∧ i ≤ (p.toList.filter nonSpecial).length) ∧
      posDisjoint n := by
  obtain ⟨hfst, hsnd⟩ := parse_ok_syms h
  have hlen : n.syms.length = (p.toList.filter nonSpecial).length := by
    rw [← hsnd, List.length_map]
  refine ⟨by rw [← hlen]; exact hfst, hsnd, ?_, ?_⟩
  · intro i
    rw [posDom_eq_syms_keys, List.mem_toFinset, hfst, ← hlen,
      List.mem_range'_1]
    omega
  · exact posDisjoint_of_nodup n (by rw [hfst]; exact List.nodup_range' 1 _)

/-- Witness for C7 at the pattern `a*b`. -/
theorem c7_position_completeness_witness :
    parse "a*b" = some (Except.ok exampleAStarB) ∧
      (exampleAStarB.syms.map Prod.fst =
          List.range' 1 ("a*b".toList.filter nonSpecial).length ∧
        exampleAStarB.syms.map Prod.snd = "a*b".toList.filter nonSpecial ∧
        (∀ i, i ∈ exampleAStarB.posDom ↔
          1 ≤ i ∧ i ≤ ("a*b".toList.filter nonSpecial).length) ∧
        posDisjoint exampleAStarB) :=
  ⟨by decide, c7_position_completeness "a*b" exampleAStarB (by decide)⟩

/-- C9: `parse("a**")` fails with the `UnexpectedToken` error, carrying
the parser's cursor (which has just consumed the offending `*` at index
2, so it reads 3, exactly as `parser.py` formats it) and the offending
token; the result carries no AST. -/
theorem c9_double_star_rejected :
    parse "a**" =
        some (Except.error (ParseError.unexpectedToken 3 '*')) ∧
      ∀ n : Node, parse "a**" ≠ some (Except.ok n) := by
  constructor
  · decide
  · intro n h
    rw [show parse "a**" =
      some (Except.error (ParseError.unexpectedToken 3 '*')) from by decide] at h
    simp at h

/-! ## Attribute containment and the empty word (lemmas for C10) -/

theorem first_subset_posDom : ∀ n : Node, n.first ⊆ n.posDom := by
  intro n
  induction n with
  | Symbol v k => simp [Node.first, Node.posDom]
  | Star c ih => simpa [Node.first, Node.posDom] using ih
  | Concat l r ihl ihr =>
      rw [Node.first, Node.posDom]
      split
      · exact Finset.union_subset_union ihl ihr
      · exact ihl.trans Finset.subset_union_left
  | Alt l r ihl ihr =>
      rw [Node.first, Node.posDom]
      exact Finset.union_subset_union ihl ihr

theorem last_subset_posDom : ∀ n : Node, n.last ⊆ n.posDom := by
  intro n
  induction n with
  | Symbol v k => simp [Node.last, Node.posDom]
  | Star c ih => simpa [Node.last, Node.posDom] using ih
  | Concat l r ihl ihr =>
      rw [Node.last, Node.posDom]
      split
      · exact Finset.union_subset_union ihl ihr
      · exact ihr.trans Finset.subset_union_right
  | Alt l r ihl ihr =>
      rw [Node.last, Node.posDom]
      exact Finset.union_subset_union ihl ihr

theorem follow_subset_posDom :
    ∀ n : Node, n.follow ⊆ n.posDom ×ˢ n.posDom := by
  intro n
  induction n with
  | Symbol v k => simp [Node.follow]
  | Star c ih =>
      rw [Node.follow, Node.posDom]
      refine Finset.union_subset ?_ ih
      exact Finset.product_subset_product (last_subset_posDom c)
        (first_subset_posDom c)
  | Concat l r ihl ihr =>
      rw [Node.follow, Node.posDom]
      refine Finset.union_subset (Finset.union_subset ?_ ?_) ?_
      · refine Finset.product_subset_product ?_ ?_
        · exact (last_subset_posDom l).trans Finset.subset_union_left
        · exact (first_subset_posDom r).trans Finset.subset_union_right
      · exact ihl.trans (Finset.product_subset_product
          Finset.subset_union_left Finset.subset_union_left)
      · exact ihr.trans (Finset.product_subset_product
          Finset.subset_union_right Finset.subset_union_right)
  | Alt l r ihl ihr =>
      rw [Node.follow, Node.posDom]
      refine Finset.union_subset ?_ ?_
      · exact ihl.trans (Finset.product_subset_product
          Finset.subset_union_left Finset.subset_union_left)
      · exact ihr.trans (Finset.product_subset_product
          Finset.subset_union_right Finset.subset_union_right)

theorem parse_zero_not_posDom {p : String} {n : Node}
    (h : parse p = some (Except.ok n)) : 0 ∉ n.posDom := by
  obtain ⟨hfst, _⟩ := parse_ok_syms h
  rw [posDom_eq_syms_keys, List.mem_toFinset, hfst, List.mem_range'_1]
  omega

theorem nullable_iff_zero_last0 {n : Node} (h0 : 0 ∉ n.posDom) :
    (0 ∈ n.last_0) ↔ n.nullable = true := by
  unfold Node.last_0
  split
  · rename_i hn
    simp [hn]
  · rename_i hn
    simp only [Bool.not_eq_true] at hn
    constructor
    · intro h
      exact absurd (last_subset_posDom n h) h0
    · intro h
      rw [h] at hn
      simp at hn

/-- C10: for every successfully parsed AST each of the four engines
accepts the empty word iff the AST is nullable, equivalently iff `0`
lies in `last_0`; on the empty word every engine only evaluates its
finality predicate on the initial state. -/
theorem c10_empty_word_acceptance (p : String) (n : Node)
    (h : parse p = some (Except.ok n)) :
    PositionAutomata.accepts n [] = n.nullable ∧
      FollowAutomata.accepts n [] = n.nullable ∧
      McNaughtonYamadaAutomata.accepts n [] = n.nullable ∧
      MarkBeforeAutomata.accepts n [] = n.nullable ∧
      (n.nullable = true ↔ 0 ∈ n.last_0) := by
  have h0 := parse_zero_not_posDom h
  have hiff := nullable_iff_zero_last0 h0
  have hb : decide ((0 : ℕ) ∈ n.last_0) = n.nullable := by
    by_cases hz : (0 : ℕ) ∈ n.last_0
    · simp [hz, hiff.mp hz]
    · have hn : n.nullable = false := by
        cases hn : n.nullable
        · rfl
        · exact absurd (hiff.mpr hn) hz
      simp [hz, hn]
  refine ⟨?_, ?_, ?_, ?_, hiff.symm⟩
  · rw [← hb]
    simp [PositionAutomata.accepts, nfaAccepts, PositionAutomata.is_final]
  · rw [← hb]
    simp [FollowAutomata.accepts, nfaAccepts, FollowAutomata.follow_state]
  · rw [← hb]
    simp [McNaughtonYamadaAutomata.accepts, dfaAccepts,
      McNaughtonYamadaAutomata.is_final]
  · rw [← hb]
    simp [MarkBeforeAutomata.accepts, dfaAccepts, MarkBeforeAutomata.initial]

/-! ## Reversal of the Glushkov attributes (lemmas for C4) -/

theorem nullable_reverse (n : Node) : n.reverse.nullable = n.nullable := by
  induction n with
  | Symbol v k => rfl
  | Star c ih => simp [Node.reverse, Node.nullable, ih]
  | Concat l r ihl ihr =>
      simp [Node.reverse, Node.nullable, ihl, ihr, Bool.and_comm]
  | Alt l r ihl ihr =>
      simp [Node.reverse, Node.nullable, ihl, ihr, Bool.or_comm]

theorem first_reverse (n : Node) : n.reverse.first = n.last := by
  induction n with
  | Symbol v k => rfl
  | Star c ih => simpa [Node.reverse, Node.first, Node.last] using ih
  | Concat l r ihl ihr =>
      simp [Node.reverse, Node.first, Node.last, ihl, ihr, nullable_reverse,
        Finset.union_comm]
  | Alt l r ihl ihr =>
      simp [Node.reverse, Node.first, Node.last, ihl, ihr, Finset.union_comm]

theorem last_reverse (n : Node) : n.reverse.last = n.first := by
  induction n with
  | Symbol v k => rfl
  | Star c ih => simpa [Node.reverse, Node.first, Node.last] using ih
  | Concat l r ihl ihr =>
      simp [Node.reverse, Node.first, Node.last, ihl, ihr, nullable_reverse,
        Finset.union_comm]
  | Alt l r ihl ihr =>
      simp [Node.reverse, Node.first, Node.last, ihl, ihr, Finset.union_comm]

theorem follow_reverse (n : Node) :
    n.reverse.follow = n.follow.image Prod.swap := by
  induction n with
  | Symbol v k => simp [Node.reverse, Node.follow]
  | Star c ih =>
      simp [Node.reverse, Node.follow, ih, first_reverse, last_reverse,
        Finset.image_union]
  | Concat l r ihl ihr =>
      simp [Node.reverse, Node.follow, ihl, ihr, first_reverse, last_reverse,
        Finset.image_union, Finset.union_comm, Finset.union_assoc,
        Finset.union_left_comm]
  | Alt l r ihl ihr =>
      simp [Node.reverse, Node.follow, ihl, ihr, Finset.image_union,
        Finset.union_comm]

theorem mem_follow_reverse (n : Node) (i j : ℕ) :
    (i, j) ∈ n.reverse.follow ↔ (j, i) ∈ n.follow := by
  rw [follow_reverse]
  simp only [Finset.mem_image]
  constructor
  · rintro ⟨⟨x, y⟩, hmem, hswap⟩
    simp only [Prod.swap_prod_mk, Prod.mk.injEq] at hswap
    obtain ⟨rfl, rfl⟩ := hswap
    exact hmem
  · intro h
    exact ⟨(j, i), h, rfl⟩

theorem posDom_reverse (n : Node) : n.reverse.posDom = n.posDom := by
  induction n with
  | Symbol v k => rfl
  | Star c ih => simpa [Node.reverse, Node.posDom] using ih
  | Concat l r ihl ihr =>
      simp [Node.reverse, Node.posDom, ihl, ihr, Finset.union_comm]
  | Alt l r ihl ihr =>
      simp [Node.reverse, Node.posDom, ihl, ihr, Finset.union_comm]

theorem syms_reverse (n : Node) : n.reverse.syms = n.syms.reverse := by
  induction n with
  | Symbol v k => rfl
  | Star c ih => simpa [Node.reverse, Node.syms] using ih
  | Concat l r ihl ihr => simp [Node.reverse, Node.syms, ihl, ihr]
  | Alt l r ihl ihr => simp [Node.reverse, Node.syms, ihl, ihr]

theorem mem_symbolsL_reverse (n : Node) (a : Char) :
    a ∈ n.reverse.symbolsL ↔ a ∈ n.symbolsL := by
  simp [Node.symbolsL, syms_reverse]

theorem pos_isSome_iff (n : Node) (i : ℕ) :
    (n.pos i).isSome = true ↔ i ∈ n.posDom := by
  induction n with
  | Symbol v k =>
      simp only [Node.pos, Node.posDom, Finset.mem_singleton]
      split
      · rename_i h
        simp [h]
      · rename_i h
        simp [h]
  | Star c ih => simpa [Node.pos, Node.posDom] using ih
  | Concat l r ihl ihr =>
      simp only [Node.pos, Node.posDom, Finset.mem_union]
      cases hri : r.pos i with
      | none =>
          have hr' : i ∉ r.posDom := by
            rw [← ihr, hri]
            simp
          simp [hri, ihl, hr']
      | some v =>
          have hr' : i ∈ r.posDom := by
            rw [← ihr, hri]
            simp
          simp [hri, hr']
  | Alt l r ihl ihr =>
      simp only [Node.pos, Node.posDom, Finset.mem_union]
      cases hri : r.pos i with
      | none =>
          have hr' : i ∉ r.posDom := by
            rw [← ihr, hri]
            simp
          simp [hri, ihl, hr']
      | some v =>
          have hr' : i ∈ r.posDom := by
            rw [← ihr, hri]
            simp
          simp [hri, hr']

theorem pos_reverse (n : Node) (hd : posDisjoint n) (i : ℕ) :
    n.reverse.pos i = n.pos i := by
  induction n with
  | Symbol v k => rfl
  | Star c ih => exact ih hd
  | Concat l r ihl ihr =>
      obtain ⟨hdisj, hl, hr⟩ := hd
      simp only [Node.reverse, Node.pos, ihl hl, ihr hr]
      cases hli : l.pos i with
      | none => cases hri : r.pos i <;> simp [hli, hri]
      | some v =>
          cases hri : r.pos i with
          | none => simp [hli, hri]
          | some w =>
              exfalso
              have h1 : i ∈ l.posDom := (pos_isSome_iff l i).mp (by simp [hli])
              have h2 : i ∈ r.posDom := (pos_isSome_iff r i).mp (by simp [hri])
              have : i ∈ l.posDom ∩ r.posDom := Finset.mem_inter.mpr ⟨h1, h2⟩
              rw [hdisj] at this
              simp at this
  | Alt l r ihl ihr =>
      obtain ⟨hdisj, hl, hr⟩ := hd
      simp only [Node.reverse, Node.pos, ihl hl, ihr hr]
      cases hli : l.pos i with
      | none => cases hri : r.pos i <;> simp [hli, hri]
      | some v =>
          cases hri : r.pos i with
          | none => simp [hli, hri]
          | some w =>
              exfalso
              have h1 : i ∈ l.posDom := (pos_isSome_iff l i).mp (by simp [hli])
              have h2 : i ∈ r.posDom := (pos_isSome_iff r i).mp (by simp [hri])
              have : i ∈ l.posDom ∩ r.posDom := Finset.mem_inter.mpr ⟨h1, h2⟩
              rw [hdisj] at this
              simp at this

theorem posDisjoint_reverse {n : Node} (hd : posDisjoint n) :
    posDisjoint n.reverse := by
  induction n with
  | Symbol v k => trivial
  | Star c ih => exact ih hd
  | Concat l r ihl ihr =>
      obtain ⟨hdisj, hl, hr⟩ := hd
      exact ⟨by rw [posDom_reverse, posDom_reverse, Finset.inter_comm, hdisj],
        ihr hr, ihl hl⟩
  | Alt l r ihl ihr =>
      obtain ⟨hdisj, hl, hr⟩ := hd
      exact ⟨by rw [posDom_reverse, posDom_reverse, Finset.inter_comm, hdisj],
        ihr hr, ihl hl⟩

theorem pos_mem_symbolsL {n : Node} {i : ℕ} {a : Char}
    (h : n.pos i = some a) : a ∈ n.symbolsL := by
  induction n with
  | Symbol v k =>
      simp only [Node.pos] at h
      split at h
      · simp only [Option.some.injEq] at h
        simp [Node.symbolsL, Node.syms, h]
      · simp at h
  | Star c ih => exact ih h
  | Concat l r ihl ihr =>
      simp only [Node.pos] at h
      simp only [Node.symbolsL, Node.syms, List.map_append, List.mem_append]
      cases hri : r.pos i with
      | none =>
          rw [hri] at h
          exact Or.inl (ihl h)
      | some v =>
          rw [hri] at h
          simp only [Option.some.injEq] at h
          exact Or.inr (ihr (by rw [hri, h]))
  | Alt l r ihl ihr =>
      simp only [Node.pos] at h
      simp only [Node.symbolsL, Node.syms, List.map_append, List.mem_append]
      cases hri : r.pos i with
      | none =>
          rw [hri] at h
          exact Or.inl (ihl h)
      | some v =>
          rw [hri] at h
          simp only [Option.some.injEq] at h
          exact Or.inr (ihr (by rw [hri, h]))

/-! ## Path semantics of the Position automaton (lemmas for C4) -/

theorem node_reverse_reverse (n : Node) : n.reverse.reverse = n := by
  induction n with
  | Symbol v k => rfl
  | Star c ih => simp [Node.reverse, ih]
  | Concat l r ihl ihr => simp [Node.reverse, ihl, ihr]
  | Alt l r ihl ihr => simp [Node.reverse, ihl, ihr]

theorem follow_i_zero (n : Node) : FromNode.follow_i n 0 = n.first := by
  simp [FromNode.follow_i]

theorem mem_follow_i_ne {n : Node} {s j : ℕ} (hs : s ≠ 0) :
    j ∈ FromNode.follow_i n s ↔ (s, j) ∈ n.follow := by
  simp only [FromNode.follow_i, if_neg hs, Finset.mem_image,
    Finset.mem_filter]
  constructor
  · rintro ⟨⟨x, y⟩, ⟨hmem, rfl⟩, rfl⟩
    exact hmem
  · intro h
    exact ⟨(s, j), ⟨h, rfl⟩, rfl⟩

theorem pathTo_ne_nil {n : Node} {w : List Char} {j : ℕ}
    (h : PathTo n w j) : w ≠ [] := by
  induction h with
  | start _ _ => simp
  | step _ _ _ _ => simp

theorem pathTo_mem_posDom {n : Node} {w : List Char} {j : ℕ}
    (h : PathTo n w j) : j ∈ n.posDom := by
  induction h with
  | start _ hp => exact (pos_isSome_iff n _).mp (by simp [hp])
  | step _ _ hp _ => exact (pos_isSome_iff n _).mp (by simp [hp])

theorem pathTo_snoc_inv {n : Node} {u : List Char} {a : Char} {j : ℕ}
    (h : PathTo n (u ++ [a]) j) :
    (u = [] ∧ j ∈ n.first ∧ n.pos j = some a) ∨
      (∃ i, PathTo n u i ∧ (i, j) ∈ n.follow ∧ n.pos j = some a) := by
  have hgen : ∀ w, PathTo n w j → w = u ++ [a] →
      (u = [] ∧ j ∈ n.first ∧ n.pos j = some a) ∨
        (∃ i, PathTo n u i ∧ (i, j) ∈ n.follow ∧ n.pos j = some a) := by
    intro w hw
    induction hw with
    | start hf hp =>
        intro heq
        rename_i a0 _
        cases u with
        | nil =>
            simp only [List.nil_append, List.cons.injEq, and_true] at heq
            refine Or.inl ⟨rfl, hf, ?_⟩
            rw [← show a0 = a from by simpa using heq]
            exact hp
        | cons x xs =>
            exfalso
            simp only [List.cons_append, List.cons.injEq] at heq
            exact List.append_ne_nil_of_right_ne_nil xs (by simp) heq.2.symm
    | step hpath hfol hp _ =>
        intro heq
        obtain ⟨rfl, heq2⟩ := List.append_inj' heq rfl
        simp only [List.cons.injEq] at heq2
        refine Or.inr ⟨_, hpath, hfol, ?_⟩
        rw [← heq2.1]
        exact hp
  exact hgen _ h rfl

theorem reachP_mem {n : Node} (h0 : 0 ∉ n.posDom) (w : List Char) :
    ∀ j, j ∈ reachP n w ↔ (w = [] ∧ j = 0) ∨ PathTo n w j := by
  induction w using List.reverseRecOn with
  | nil =>
      intro j
      simp only [reachP, List.foldl_nil, Finset.mem_singleton]
      constructor
      · intro h
        exact Or.inl ⟨by trivial, h⟩
      · rintro (⟨-, rfl⟩ | hp)
        · rfl
        · exact absurd rfl (pathTo_ne_nil hp)
  | append_singleton u a ih =>
      intro j
      have hstep : reachP n (u ++ [a]) =
          nfaStep (PositionAutomata.transition n) (reachP n u) a := by
        rw [reachP, List.foldl_append]
        rfl
      rw [hstep]
      constructor
      · intro hj
        rw [nfaStep, Finset.mem_biUnion] at hj
        obtain ⟨i, hi, hji⟩ := hj
        rw [PositionAutomata.transition, FromNode.select,
          Finset.mem_filter] at hji
        obtain ⟨hjf, hjp⟩ := hji
        rcases (ih i).mp hi with ⟨rfl, rfl⟩ | hp
        · rw [follow_i_zero] at hjf
          exact Or.inr (by simpa using PathTo.start hjf hjp)
        · have hine : i ≠ 0 := by
            intro hi0
            exact h0 (hi0 ▸ pathTo_mem_posDom hp)
          rw [mem_follow_i_ne hine] at hjf
          exact Or.inr (PathTo.step hp hjf hjp)
      · rintro (⟨habs, -⟩ | hp)
        · exact absurd habs (by simp)
        · rcases pathTo_snoc_inv hp with ⟨rfl, hjf, hjp⟩ | ⟨i, hpi, hij, hjp⟩
          · rw [nfaStep, Finset.mem_biUnion]
            refine ⟨0, by simp [reachP], ?_⟩
            rw [PositionAutomata.transition, FromNode.select, follow_i_zero,
              Finset.mem_filter]
            exact ⟨hjf, hjp⟩
          · rw [nfaStep, Finset.mem_biUnion]
            refine ⟨i, (ih i).mpr (Or.inr hpi), ?_⟩
            have hine : i ≠ 0 := by
              intro hi0
              exact h0 (hi0 ▸ pathTo_mem_posDom hpi)
            rw [PositionAutomata.transition, FromNode.select,
              Finset.mem_filter, mem_follow_i_ne hine]
            exact ⟨hij, hjp⟩

theorem last_subset_last_0 (n : Node) : n.last ⊆ n.last_0 := by
  unfold Node.last_0
  split
  · exact Finset.subset_union_left
  · exact Finset.Subset.refl _

theorem position_accepts_iff_via {n : Node} (h0 : 0 ∉ n.posDom)
    (w : List Char) :
    PositionAutomata.accepts n w = true ↔ AcceptsVia n w := by
  rw [PositionAutomata.accepts, nfaAccepts_eq_fold, decide_eq_true_eq]
  rw [show List.foldl (nfaStep (PositionAutomata.transition n)) {0} w =
    reachP n w from rfl]
  constructor
  · rintro ⟨s, hs, hfin⟩
    have hsl : s ∈ n.last_0 := by
      simpa [PositionAutomata.is_final] using hfin
    rcases (reachP_mem h0 w s).mp hs with ⟨rfl, rfl⟩ | hp
    · exact Or.inl ⟨rfl, hsl⟩
    · refine Or.inr ⟨s, hp, ?_⟩
      have hne : s ≠ 0 := by
        intro h
        exact h0 (h ▸ pathTo_mem_posDom hp)
      unfold Node.last_0 at hsl
      split at hsl
      · rcases Finset.mem_union.mp hsl with h | h
        · exact h
        · rw [Finset.mem_singleton] at h
          exact absurd h hne
      · exact hsl
  · rintro (⟨rfl, hl⟩ | ⟨j, hp, hl⟩)
    · exact ⟨0, by simp [reachP], by simp [PositionAutomata.is_final, hl]⟩
    · refine ⟨j, (reachP_mem h0 w j).mpr (Or.inr hp), ?_⟩
      simp [PositionAutomata.is_final, last_subset_last_0 n hl]

theorem pathTo_iff_isPath {n : Node} {w : List Char} {j : ℕ} :
    PathTo n w j ↔ ∃ l, IsPath n l w ∧ l.getLast? = some j := by
  constructor
  · intro h
    induction h with
    | start hf hp =>
        rename_i a0 j0
        refine ⟨[j0], ⟨by simp, ?_, List.chain'_singleton j0, ?_⟩, by simp⟩
        · intro p hp2
          simp only [List.zip_cons_cons, List.zip_nil_right,
            List.mem_singleton] at hp2
          rw [hp2]
          exact hp
        · intro h hh
          simp only [List.head?_cons, Option.mem_def, Option.some.injEq] at hh
          rw [← hh]
          exact hf
    | step hpath hfol hp ih =>
        rename_i w0 a0 i0 j0
        obtain ⟨l, ⟨hlen, hlab, hch, hhd⟩, hlast⟩ := ih
        have hlne : l ≠ [] := by
          intro hx
          rw [hx] at hlast
          simp at hlast
        refine ⟨l ++ [j0], ⟨by simp [hlen], ?_, ?_, ?_⟩,
          List.getLast?_concat l⟩
        · intro p hp2
          rw [List.zip_append hlen] at hp2
          rcases List.mem_append.mp hp2 with h | h
          · exact hlab p h
          · simp only [List.zip_cons_cons, List.zip_nil_right,
              List.mem_singleton] at h
            rw [h]
            exact hp
        · rw [List.chain'_append]
          refine ⟨hch, List.chain'_singleton _, ?_⟩
          intro x hx y hy
          rw [hlast] at hx
          simp only [Option.mem_def, Option.some.injEq] at hx
          simp only [List.head?_cons, Option.mem_def, Option.some.injEq] at hy
          rw [← hx, ← hy]
          exact hfol
        · intro h hh
          cases l with
          | nil => exact absurd rfl hlne
          | cons c cs =>
              simp only [List.cons_append, List.head?_cons] at hh
              exact hhd h (by simpa using hh)
  · rintro ⟨l, hpath, hlast⟩
    induction l using List.reverseRecOn generalizing w j with
    | nil => simp at hlast
    | append_singleton l x ih =>
        rw [List.getLast?_concat] at hlast
        have hxj : x = j := by simpa using hlast
        subst hxj
        obtain ⟨hlen, hlab, hch, hhd⟩ := hpath
        have hwne : w ≠ [] := by
          intro hw
          rw [hw] at hlen
          simp at hlen
        obtain ⟨u, b, rfl⟩ : ∃ u b, w = u ++ [b] :=
          ⟨w.dropLast, w.getLast hwne, (List.dropLast_concat_getLast hwne).symm⟩
        have hlen2 : l.length = u.length := by
          simp only [List.length_append, List.length_cons,
            List.length_nil] at hlen
          omega
        have hzip : (l ++ [x]).zip (u ++ [b]) = l.zip u ++ [x].zip [b] :=
          List.zip_append hlen2
        have hposj : n.pos x = some b := by
          refine hlab (x, b) ?_
          rw [hzip]
          simp
        rw [List.chain'_append] at hch
        obtain ⟨hchl, -, hcross⟩ := hch
        cases l with
        | nil =>
            have hu : u = [] := by
              cases u with
              | nil => rfl
              | cons y ys => simp at hlen2
            subst hu
            have hjf : x ∈ n.first := hhd x (by simp)
            exact (by simpa using PathTo.start hjf hposj)
        | cons y ys =>
            have hlne2 : (y :: ys) ≠ [] := by simp
            obtain ⟨i, hi⟩ : ∃ i, (y :: ys).getLast? = some i := by
              cases hgl : (y :: ys).getLast? with
              | none => simp at hgl
              | some i => exact ⟨i, rfl⟩
            have hpi : PathTo n u i := by
              refine ih ⟨hlen2, ?_, hchl, ?_⟩ hi
              · intro p hp2
                refine hlab p ?_
                rw [hzip]
                exact List.mem_append_left _ hp2
              · intro h hh
                refine hhd h ?_
                simpa using hh
            have hij : (i, x) ∈ n.follow := by
              refine hcross i ?_ x (by simp)
              rw [hi]
              rfl
            exact PathTo.step hpi hij hposj

theorem zip_reverse {α β : Type} :
    ∀ (l : List α) (w : List β), l.length = w.length →
      l.reverse.zip w.reverse = (l.zip w).reverse := by
  intro l
  induction l with
  | nil =>
      intro w h
      have : w = [] := by
        cases w with
        | nil => rfl
        | cons y ys => simp at h
      subst this
      rfl
  | cons x l ih =>
      intro w h
      cases w with
      | nil => simp at h
      | cons y w2 =>
          simp only [List.reverse_cons]
          rw [List.zip_append (by simp; simpa using h), ih w2 (by simpa using h)]
          simp

theorem isPath_of_reverse {n : Node} (hd : posDisjoint n)
    {l : List ℕ} {w : List Char} (hp : IsPath n.reverse l w)
    (hlast : ∀ t ∈ l.getLast?, t ∈ n.first) :
    IsPath n l.reverse w.reverse ∧
      (∀ t ∈ l.reverse.getLast?, t ∈ n.last) := by
  obtain ⟨hlen, hlab, hch, hhd⟩ := hp
  refine ⟨⟨by simp [hlen], ?_, ?_, ?_⟩, ?_⟩
  · intro p hp2
    rw [zip_reverse l w hlen, List.mem_reverse] at hp2
    rw [← pos_reverse n hd]
    exact hlab p hp2
  · rw [List.chain'_reverse]
    refine hch.imp ?_
    intro i j hij
    rw [mem_follow_reverse] at hij
    exact hij
  · intro h hh
    rw [List.head?_reverse] at hh
    exact hlast h hh
  · intro t ht
    rw [List.getLast?_reverse] at ht
    have := hhd t ht
    rw [first_reverse] at this
    exact this

theorem acceptsVia_reverse_mp {n : Node} (hd : posDisjoint n)
    (h0 : 0 ∉ n.posDom) {w : List Char} (h : AcceptsVia n.reverse w) :
    AcceptsVia n w.reverse := by
  rcases h with ⟨rfl, hz⟩ | ⟨j, hp, hl⟩
  · refine Or.inl ⟨rfl, ?_⟩
    have h0r : 0 ∉ n.reverse.posDom := by
      rw [posDom_reverse]
      exact h0
    have hn : n.reverse.nullable = true := (nullable_iff_zero_last0 h0r).mp hz
    rw [nullable_reverse] at hn
    exact (nullable_iff_zero_last0 h0).mpr hn
  · obtain ⟨l, hpath, hlast⟩ := pathTo_iff_isPath.mp hp
    have hlastf : ∀ t ∈ l.getLast?, t ∈ n.first := by
      intro t ht
      rw [hlast] at ht
      simp only [Option.mem_def, Option.some.injEq] at ht
      rw [ht] at hl
      rw [last_reverse] at hl
      exact hl
    obtain ⟨hpath2, hlast2⟩ := isPath_of_reverse hd hpath hlastf
    have hlne : l ≠ [] := by
      intro hx
      rw [hx] at hlast
      simp at hlast
    obtain ⟨j2, hj2⟩ : ∃ j2, l.reverse.getLast? = some j2 := by
      cases hgl : l.reverse.getLast? with
      | none =>
          rw [List.getLast?_eq_none_iff] at hgl
          simp only [List.reverse_eq_nil_iff] at hgl
          exact absurd hgl hlne
      | some i => exact ⟨i, rfl⟩
    refine Or.inr ⟨j2, pathTo_iff_isPath.mpr ⟨l.reverse, hpath2, hj2⟩, ?_⟩
    exact hlast2 j2 (by rw [hj2]; rfl)

theorem acceptsVia_reverse {n : Node} (hd : posDisjoint n)
    (h0 : 0 ∉ n.posDom) (w : List Char) :
    AcceptsVia n.reverse w ↔ AcceptsVia n w.reverse := by
  constructor
  · exact acceptsVia_reverse_mp hd h0
  · intro h
    have hd' : posDisjoint n.reverse := posDisjoint_reverse hd
    have h0' : 0 ∉ n.reverse.posDom := by
      rw [posDom_reverse]
      exact h0
    have := acceptsVia_reverse_mp hd' h0' (w := w.reverse)
      (by rw [node_reverse_reverse]; exact h)
    simpa using this

/-- Acceptance of the Position automaton on the reversed AST is
acceptance of the reversed word on the original AST. -/
theorem position_accepts_reverse {n : Node} (hd : posDisjoint n)
    (h0 : 0 ∉ n.posDom) (w : List Char) :
    PositionAutomata.accepts n.reverse w =
      PositionAutomata.accepts n w.reverse := by
  have h0r : 0 ∉ n.reverse.posDom := by
    rw [posDom_reverse]
    exact h0
  have hbool : ∀ x y : Bool, (x = true ↔ y = true) → x = y := by decide
  refine hbool _ _ ?_
  rw [position_accepts_iff_via h0r, position_accepts_iff_via h0]
  exact acceptsVia_reverse hd h0 w

/-! ## Determinisation and reversal preserve the language (for C4) -/

theorem decide_eq_bool {P : Prop} [Decidable P] {b : Bool}
    (h : P ↔ b = true) : decide P = b := by
  cases b
  · simp only [Bool.false_eq_true, iff_false] at h
    simpa using h
  · simpa using h.mpr rfl

theorem select_subset_posDom (n : Node) (s : Finset ℕ) (a : Char) :
    FromNode.select n s a ⊆ n.posDom := by
  intro i hi
  rw [FromNode.select, Finset.mem_filter] at hi
  exact (pos_isSome_iff n i).mp (by simp [hi.2])

theorem select_empty_of_not_mem {n : Node} {a : Char}
    (ha : a ∉ n.symbolsL) (s : Finset ℕ) : FromNode.select n s a = ∅ := by
  rw [Finset.eq_empty_iff_forall_not_mem]
  intro i hi
  rw [FromNode.select, Finset.mem_filter] at hi
  exact ha (pos_mem_symbolsL hi.2)

theorem follow_i_subset_posDom (n : Node) (i : ℕ) :
    FromNode.follow_i n i ⊆ n.posDom := by
  unfold FromNode.follow_i
  split
  · exact first_subset_posDom n
  · intro j hj
    rw [Finset.mem_image] at hj
    obtain ⟨⟨x, y⟩, hmem, rfl⟩ := hj
    have := follow_subset_posDom n (Finset.mem_filter.mp hmem).1
    exact (Finset.mem_product.mp this).2

theorem follow_set_subset_posDom (n : Node) (s : Finset ℕ) :
    FromNode.follow_set n s ⊆ n.posDom := by
  intro j hj
  rw [FromNode.follow_set, Finset.mem_biUnion] at hj
  obtain ⟨i, _, hji⟩ := hj
  exact follow_i_subset_posDom n i hji

/-- The dead state of the Mark-Before DFA is absorbing and non-final. -/
theorem mb_absorbing (n : Node) : ∀ (fs : FollowState) (a : Char),
    decide (fs.follow = ∅) = true →
      decide ((MarkBeforeAutomata.transition n fs a).follow = ∅) = true ∧
        (MarkBeforeAutomata.transition n fs a).final = false := by
  intro fs a hfs
  have h : fs.follow = ∅ := by simpa using hfs
  constructor
  · simp [MarkBeforeAutomata.transition, FromNode.select, h,
      FromNode.follow_set]
  · simp [MarkBeforeAutomata.transition, FromNode.select, h,
      MarkBeforeAutomata.set_finality]

/-- The dead state of any determinised NFA is absorbing and non-final. -/
theorem det_absorbing {σ : Type} [DecidableEq σ] (m : NFAb σ) :
    ∀ (S : Finset σ) (a : Char),
      m.subset_determinise.isEmpty S = true →
        m.subset_determinise.isEmpty (m.subset_determinise.transition S a) =
            true ∧
          m.subset_determinise.is_final
            (m.subset_determinise.transition S a) = false := by
  intro S a hS
  have h : S = ∅ := by simpa [NFAb.subset_determinise] using hS
  subst h
  constructor
  · simp [NFAb.subset_determinise]
  · simp [NFAb.subset_determinise]

/-- Subset determinisation preserves acceptance. -/
theorem det_accepts {σ : Type} [DecidableEq σ] (m : NFAb σ)
    (w : List Char) : m.subset_determinise.accepts w = m.accepts w := by
  rw [DFAb.accepts, dfaAccepts_eq_fold _ _ _ (det_absorbing m),
    NFAb.accepts, nfaAccepts_eq_fold]
  rfl

theorem reverse_det_fold {σ : Type} [DecidableEq σ] (d : DFAb σ)
    (fuel : ℕ)
    (hclo : ∀ p ∈ d.all_states fuel, ∀ a ∈ d.symbols,
      d.keep (d.transition p a) = true → d.transition p a ∈ d.all_states fuel)
    (habs : ∀ s a, d.isEmpty s = true →
      d.isEmpty (d.transition s a) = true ∧ d.is_final (d.transition s a) = false)
    (hmiss : ∀ s a, a ∉ d.symbols →
      d.isEmpty (d.transition s a) = true ∧
        d.is_final (d.transition s a) = false)
    (w : List Char) :
    List.foldl ((d.reverse fuel).subset_determinise).transition
        ((d.reverse fuel).subset_determinise).initial w =
      (d.all_states fuel).filter
        (fun p => d.is_final (List.foldl d.transition p w.reverse) = true) := by
  induction w using List.reverseRecOn with
  | nil => rfl
  | append_singleton u a ih =>
      rw [List.foldl_append, List.foldl_cons, List.foldl_nil, ih]
      ext p
      simp only [NFAb.subset_determinise, DFAb.reverse, Finset.mem_biUnion,
        Finset.mem_filter]
      constructor
      · rintro ⟨q, ⟨hqA, hqpred⟩, hpA, hδ⟩
        refine ⟨hpA, ?_⟩
        rw [List.reverse_append]
        simp only [List.reverse_cons, List.reverse_nil, List.nil_append,
          List.singleton_append, List.foldl_cons]
        rw [hδ]
        exact hqpred
      · rintro ⟨hpA, hpred⟩
        rw [List.reverse_append] at hpred
        simp only [List.reverse_cons, List.reverse_nil, List.nil_append,
          List.singleton_append, List.foldl_cons] at hpred
        refine ⟨d.transition p a, ⟨?_, hpred⟩, hpA, rfl⟩
        by_cases hain : a ∈ d.symbols
        · by_cases hk : d.keep (d.transition p a) = true
          · exact hclo p hpA a hain hk
          · exfalso
            rw [DFAb.keep, Bool.or_eq_true, Bool.not_eq_true'] at hk
            push_neg at hk
            have he : d.isEmpty (d.transition p a) = true := by
              cases hx : d.isEmpty (d.transition p a)
              · exact absurd hx hk.1
              · rfl
            have hf : d.is_final (d.transition p a) = false := by
              cases hx : d.is_final (d.transition p a)
              · rfl
              · exact absurd hx hk.2
            rw [foldl_dead d.isEmpty d.is_final d.transition habs _ _ he hf]
              at hpred
            simp at hpred
        · exfalso
          obtain ⟨he, hf⟩ := hmiss p a hain
          rw [foldl_dead d.isEmpty d.is_final d.transition habs _ _ he hf]
            at hpred
          simp at hpred

/-- Reversing a DFA (over its explored state set) and determinising
yields an automaton for the reversed language. -/
theorem reverse_det_accepts {σ : Type} [DecidableEq σ] (d : DFAb σ)
    (fuel : ℕ) (hinit : d.initial ∈ d.all_states fuel)
    (hclo : ∀ p ∈ d.all_states fuel, ∀ a ∈ d.symbols,
      d.keep (d.transition p a) = true → d.transition p a ∈ d.all_states fuel)
    (habs : ∀ s a, d.isEmpty s = true →
      d.isEmpty (d.transition s a) = true ∧ d.is_final (d.transition s a) = false)
    (hmiss : ∀ s a, a ∉ d.symbols →
      d.isEmpty (d.transition s a) = true ∧
        d.is_final (d.transition s a) = false)
    (w : List Char) :
    ((d.reverse fuel).subset_determinise).accepts w = d.accepts w.reverse := by
  rw [DFAb.accepts, dfaAccepts_eq_fold _ _ _
    (det_absorbing (d.reverse fuel)),
    reverse_det_fold d fuel hclo habs hmiss w,
    DFAb.accepts, dfaAccepts_eq_fold _ _ _ habs]
  refine decide_eq_bool ?_
  constructor
  · rintro ⟨s, hs, hfin⟩
    rw [Finset.mem_filter] at hs
    have hsinit : s = d.initial := by
      simpa [DFAb.reverse, NFAb.subset_determinise] using hfin
    rw [← hsinit]
    exact hs.2
  · intro hfin
    refine ⟨d.initial, Finset.mem_filter.mpr ⟨hinit, hfin⟩, ?_⟩
    simp [DFAb.reverse, NFAb.subset_determinise]

/-! ## Breadth-first state exploration (lemmas for C8) -/

theorem bfsLoop_toCheck_empty {σ : Type} [DecidableEq σ]
    (symbols : List Char) (transition : σ → Char → σ) (keep : σ → Bool)
    (fuel : ℕ) (states : Finset σ) :
    bfsLoop symbols transition keep fuel states ∅ = states := by
  cases fuel <;> simp [bfsLoop]

theorem mem_bfsRound {σ : Type} [DecidableEq σ] {symbols : List Char}
    {transition : σ → Char → σ} {keep : σ → Bool}
    {states toCheck : Finset σ} {q : σ} :
    q ∈ bfsRound symbols transition keep states toCheck ↔
      (∃ s ∈ toCheck, ∃ a ∈ symbols, transition s a = q) ∧
        q ∉ states ∧ keep q = true := by
  simp [bfsRound, Finset.mem_filter, Finset.mem_biUnion,
    List.mem_toFinset, List.mem_map]

theorem bfsLoop_mono {σ : Type} [DecidableEq σ]
    (symbols : List Char) (transition : σ → Char → σ) (keep : σ → Bool) :
    ∀ (fuel : ℕ) (states toCheck : Finset σ),
      states ⊆ bfsLoop symbols transition keep fuel states toCheck := by
  intro fuel
  induction fuel with
  | zero => intro states toCheck; exact Finset.Subset.refl _
  | succ fuel ih =>
      intro states toCheck
      rw [bfsLoop]
      split
      · exact Finset.Subset.refl _
      · exact Finset.subset_union_left.trans (ih _ _)

theorem bfsLoop_sound {σ : Type} [DecidableEq σ]
    {symbols : List Char} {transition : σ → Char → σ} {keep : σ → Bool}
    {initial : σ} :
    ∀ (fuel : ℕ) (states toCheck : Finset σ),
      (∀ q ∈ states, BfsReach symbols transition keep initial q) →
      toCheck ⊆ states →
      ∀ q ∈ bfsLoop symbols transition keep fuel states toCheck,
        BfsReach symbols transition keep initial q := by
  intro fuel
  induction fuel with
  | zero => intro states toCheck hR _ q hq; exact hR q hq
  | succ fuel ih =>
      intro states toCheck hR hT q hq
      rw [bfsLoop] at hq
      split at hq
      · exact hR q hq
      · refine ih _ _ ?_ ?_ q hq
        · intro r hr
          rcases Finset.mem_union.mp hr with h | h
          · exact hR r h
          · obtain ⟨⟨s, hs, a, ha, rfl⟩, _, hkeep⟩ := mem_bfsRound.mp h
            exact .step (hR s (hT hs)) ha hkeep
        · exact Finset.subset_union_right

theorem bfsLoop_closed {σ : Type} [DecidableEq σ]
    {symbols : List Char} {transition : σ → Char → σ} {keep : σ → Bool}
    {U : Finset σ} (hUc : ∀ s ∈ U, ∀ a ∈ symbols, transition s a ∈ U) :
    ∀ (fuel : ℕ) (states toCheck : Finset σ),
      toCheck ⊆ states → states ⊆ U →
      (∀ s ∈ states, s ∉ toCheck → ∀ a ∈ symbols,
        keep (transition s a) = true → transition s a ∈ states) →
      U.card + 1 ≤ fuel + states.card →
      ∀ s ∈ bfsLoop symbols transition keep fuel states toCheck,
        ∀ a ∈ symbols, keep (transition s a) = true →
          transition s a ∈ bfsLoop symbols transition keep fuel states toCheck := by
  intro fuel
  induction fuel with
  | zero =>
      intro states toCheck _ hU _ hfuel
      have := Finset.card_le_card hU
      omega
  | succ fuel ih =>
      intro states toCheck hT hU hclo hfuel
      rw [bfsLoop]
      split
      · rename_i hempty
        subst hempty
        intro s hs a ha hk
        exact hclo s hs (by simp) a ha hk
      · rename_i hne
        by_cases hnews :
            bfsRound symbols transition keep states toCheck = ∅
        · rw [hnews, Finset.union_empty, bfsLoop_toCheck_empty]
          intro s hs a ha hk
          by_cases hsT : s ∈ toCheck
          · by_cases hmem : transition s a ∈ states
            · exact hmem
            · exfalso
              have : transition s a ∈
                  bfsRound symbols transition keep states toCheck :=
                mem_bfsRound.mpr ⟨⟨s, hsT, a, ha, rfl⟩, hmem, hk⟩
              rw [hnews] at this
              simp at this
          · exact hclo s hs hsT a ha hk
        · refine ih _ _ Finset.subset_union_right ?_ ?_ ?_
          · refine Finset.union_subset hU ?_
            intro q hq
            obtain ⟨⟨s, hs, a, ha, rfl⟩, _, _⟩ := mem_bfsRound.mp hq
            exact hUc s (hU (hT hs)) a ha
          · intro s hs hsnew a ha hk
            rcases Finset.mem_union.mp hs with hsS | hsN
            · by_cases hsT : s ∈ toCheck
              · by_cases hmem : transition s a ∈ states
                · exact Finset.mem_union_left _ hmem
                · refine Finset.mem_union_right _
                    (mem_bfsRound.mpr ⟨⟨s, hsT, a, ha, rfl⟩, hmem, hk⟩)
              · exact Finset.mem_union_left _ (hclo s hsS hsT a ha hk)
            · exact absurd hsN hsnew
          · have hdisj : Disjoint states
                (bfsRound symbols transition keep states toCheck) := by
              rw [Finset.disjoint_right]
              intro q hq
              exact (mem_bfsRound.mp hq).2.1
            rw [Finset.card_union_of_disjoint hdisj]
            have : 1 ≤ (bfsRound symbols transition keep states toCheck).card :=
              Finset.card_pos.mpr (Finset.nonempty_iff_ne_empty.mpr hnews)
            omega

theorem bfsLoop_stable {σ : Type} [DecidableEq σ]
    {symbols : List Char} {transition : σ → Char → σ} {keep : σ → Bool}
    {U : Finset σ} (hUc : ∀ s ∈ U, ∀ a ∈ symbols, transition s a ∈ U) :
    ∀ (fuel : ℕ) (states toCheck : Finset σ),
      toCheck ⊆ states → states ⊆ U →
      U.card + 1 ≤ fuel + states.card →
      bfsLoop symbols transition keep (fuel + 1) states toCheck =
        bfsLoop symbols transition keep fuel states toCheck := by
  intro fuel
  induction fuel with
  | zero =>
      intro states toCheck _ hU hfuel
      have := Finset.card_le_card hU
      omega
  | succ fuel ih =>
      intro states toCheck hT hU hfuel
      rw [bfsLoop]
      conv_rhs => rw [bfsLoop]
      split
      · rfl
      · by_cases hnews :
            bfsRound symbols transition keep states toCheck = ∅
        · rw [hnews, Finset.union_empty, bfsLoop_toCheck_empty,
            bfsLoop_toCheck_empty]
        · refine ih _ _ Finset.subset_union_right ?_ ?_
          · refine Finset.union_subset hU ?_
            intro q hq
            obtain ⟨⟨s, hs, a, ha, rfl⟩, _, _⟩ := mem_bfsRound.mp hq
            exact hUc s (hU (hT hs)) a ha
          · have hdisj : Disjoint states
                (bfsRound symbols transition keep states toCheck) := by
              rw [Finset.disjoint_right]
              intro q hq
              exact (mem_bfsRound.mp hq).2.1
            rw [Finset.card_union_of_disjoint hdisj]
            have : 1 ≤ (bfsRound symbols transition keep states toCheck).card :=
              Finset.card_pos.mpr (Finset.nonempty_iff_ne_empty.mpr hnews)
            omega

theorem allStates_mem_iff {σ : Type} [DecidableEq σ]
    {symbols : List Char} {transition : σ → Char → σ} {keep : σ → Bool}
    {initial : σ} {U : Finset σ} (hU0 : initial ∈ U)
    (hUc : ∀ s ∈ U, ∀ a ∈ symbols, transition s a ∈ U) (q : σ) :
    q ∈ allStates symbols transition keep initial (U.card + 1) ↔
      BfsReach symbols transition keep initial q := by
  constructor
  · intro hq
    refine bfsLoop_sound _ _ _ ?_ (Finset.Subset.refl _) q hq
    intro r hr
    rw [Finset.mem_singleton] at hr
    rw [hr]
    exact .init
  · intro hq
    induction hq with
    | init =>
        exact bfsLoop_mono _ _ _ _ _ _ (Finset.mem_singleton_self initial)
    | step hreach ha hkeep =>
        rename_i s a _
        refine bfsLoop_closed hUc _ _ _ (Finset.Subset.refl _)
          (by simpa using hU0) ?_ (by simp) s ?_ a ha hkeep
        · intro r hr hnr
          rw [Finset.mem_singleton] at hr
          rw [Finset.mem_singleton] at hnr
          exact absurd hr hnr
        · rename_i ih
          exact ih

theorem allStates_stable {σ : Type} [DecidableEq σ]
    {symbols : List Char} {transition : σ → Char → σ} {keep : σ → Bool}
    {initial : σ} {U : Finset σ} (hU0 : initial ∈ U)
    (hUc : ∀ s ∈ U, ∀ a ∈ symbols, transition s a ∈ U) :
    allStates symbols transition keep initial (U.card + 2) =
      allStates symbols transition keep initial (U.card + 1) :=
  bfsLoop_stable hUc _ _ _ (Finset.Subset.refl _) (by simpa using hU0)
    (by simp)

theorem bfsReach_iff {σ : Type} {symbols : List Char}
    {transition : σ → Char → σ} {keep : σ → Bool} {initial : σ}
    (habs : ∀ s a, keep s = false → keep (transition s a) = false) (q : σ) :
    BfsReach symbols transition keep initial q ↔
      (∃ w : List Char, (∀ c ∈ w, c ∈ symbols) ∧
          List.foldl transition initial w = q) ∧
        (q = initial ∨ keep q = true) := by
  constructor
  · intro hq
    induction hq with
    | init => exact ⟨⟨[], by simp, rfl⟩, Or.inl rfl⟩
    | step hreach ha hkeep =>
        rename_i s a ih
        obtain ⟨⟨w, hw, hfold⟩, _⟩ := ih
        refine ⟨⟨w ++ [a], ?_, ?_⟩, Or.inr hkeep⟩
        · intro c hc
          rcases List.mem_append.mp hc with h | h
          · exact hw c h
          · rw [List.mem_singleton] at h
            rw [h]
            exact ha
        · rw [List.foldl_append, hfold]
          rfl
  · rintro ⟨⟨w, hw, rfl⟩, hq⟩
    induction w using List.reverseRecOn with
    | nil =>
        simp only [List.foldl_nil]
        exact .init
    | append_singleton u a ih =>
        rw [List.foldl_append] at hq ⊢
        simp only [List.foldl_cons, List.foldl_nil] at hq ⊢
        have hu : ∀ c ∈ u, c ∈ symbols := fun c hc =>
          hw c (List.mem_append_left _ hc)
        have ha : a ∈ symbols := hw a (by simp)
        rcases hq with hinit | hkeep
        · rw [hinit]
          exact .init
        · have hkp : keep (List.foldl transition initial u) = true := by
            cases hkp : keep (List.foldl transition initial u)
            · rw [habs _ a hkp] at hkeep
              simp at hkeep
            · rfl
          exact .step (ih hu (Or.inr hkp)) ha hkeep

/-- The dead state of the McNaughton-Yamada DFA is absorbing and
non-final. -/
theorem my_absorbing (n : Node) : ∀ (s : Finset ℕ) (a : Char),
    decide (s = ∅) = true →
      decide (McNaughtonYamadaAutomata.transition n s a = ∅) = true ∧
        McNaughtonYamadaAutomata.is_final n
          (McNaughtonYamadaAutomata.transition n s a) = false := by
  intro s a hs
  have : s = ∅ := by simpa using hs
  subst this
  constructor
  · simp [McNaughtonYamadaAutomata.transition, FromNode.select,
      FromNode.follow_set]
  · simp [McNaughtonYamadaAutomata.transition,
      McNaughtonYamadaAutomata.is_final, FromNode.select, FromNode.follow_set]

/-- C8: for a DFA without a precomputed state set whose dead state is
absorbing and non-final (as for every DFA this program builds),
`all_states` returns exactly the states reachable from the initial
state by iterated transition over the alphabet, except that a reachable
dead state is excluded unless it is final, the initial state always
included; and the breadth-first fixpoint is reached within the fuel:
one more round discovers nothing. -/
theorem c8_all_states {σ : Type} [DecidableEq σ] (symbols : List Char)
    (transition : σ → Char → σ) (isEmpty is_final : σ → Bool) (initial : σ)
    (U : Finset σ) (hU0 : initial ∈ U)
    (hUc : ∀ s ∈ U, ∀ a ∈ symbols, transition s a ∈ U)
    (habs : ∀ s a, isEmpty s = true →
      isEmpty (transition s a) = true ∧ is_final (transition s a) = false) :
    (∀ q, q ∈ allStates symbols transition
        (fun s => !isEmpty s || is_final s) initial (U.card + 1) ↔
      ((∃ w : List Char, (∀ c ∈ w, c ∈ symbols) ∧
          List.foldl transition initial w = q) ∧
        (q = initial ∨ isEmpty q = false ∨ is_final q = true))) ∧
      allStates symbols transition (fun s => !isEmpty s || is_final s)
          initial (U.card + 2) =
        allStates symbols transition (fun s => !isEmpty s || is_final s)
          initial (U.card + 1) := by
  have habs' : ∀ s a, (!isEmpty s || is_final s) = false →
      (!isEmpty (transition s a) || is_final (transition s a)) = false := by
    intro s a h
    rw [Bool.or_eq_false_iff, Bool.not_eq_false'] at h ⊢
    exact ⟨(habs s a h.1).1, (habs s a h.1).2⟩
  constructor
  · intro q
    rw [allStates_mem_iff hU0 hUc, bfsReach_iff habs']
    constructor
    · rintro ⟨hpath, hq⟩
      refine ⟨hpath, ?_⟩
      rcases hq with h | h
      · exact Or.inl h
      · rw [Bool.or_eq_true, Bool.not_eq_true'] at h
        rcases h with h | h
        · exact Or.inr (Or.inl h)
        · exact Or.inr (Or.inr h)
    · rintro ⟨hpath, hq⟩
      refine ⟨hpath, ?_⟩
      rcases hq with h | h | h
      · exact Or.inl h
      · exact Or.inr (by rw [Bool.or_eq_true, Bool.not_eq_true']; exact Or.inl h)
      · exact Or.inr (by rw [Bool.or_eq_true, Bool.not_eq_true']; exact Or.inr h)
  · exact allStates_stable hU0 hUc

/-- Witness for C8: the McNaughton-Yamada DFA of the pattern `a*b`. -/
theorem c8_all_states_witness :
    ({0} : Finset ℕ) ∈ posUniverse exampleAStarB ∧
      (∀ s ∈ posUniverse exampleAStarB, ∀ a ∈ exampleAStarB.symbolsL,
        McNaughtonYamadaAutomata.transition exampleAStarB s a ∈
          posUniverse exampleAStarB) ∧
      (∀ (s : Finset ℕ) (a : Char), decide (s = ∅) = true →
        decide (McNaughtonYamadaAutomata.transition exampleAStarB s a = ∅) =
            true ∧
          McNaughtonYamadaAutomata.is_final exampleAStarB
            (McNaughtonYamadaAutomata.transition exampleAStarB s a) = false) ∧
      ((∀ q, q ∈ allStates exampleAStarB.symbolsL
          (McNaughtonYamadaAutomata.transition exampleAStarB)
          (fun s => !decide (s = ∅) ||
            McNaughtonYamadaAutomata.is_final exampleAStarB s)
          {0} ((posUniverse exampleAStarB).card + 1) ↔
        ((∃ w : List Char, (∀ c ∈ w, c ∈ exampleAStarB.symbolsL) ∧
            List.foldl (McNaughtonYamadaAutomata.transition exampleAStarB)
              {0} w = q) ∧
          (q = {0} ∨ decide (q = ∅) = false ∨
            McNaughtonYamadaAutomata.is_final exampleAStarB q = true))) ∧
        allStates exampleAStarB.symbolsL
            (McNaughtonYamadaAutomata.transition exampleAStarB)
            (fun s => !decide (s = ∅) ||
              McNaughtonYamadaAutomata.is_final exampleAStarB s)
            {0} ((posUniverse exampleAStarB).card + 2) =
          allStates exampleAStarB.symbolsL
            (McNaughtonYamadaAutomata.transition exampleAStarB)
            (fun s => !decide (s = ∅) ||
              McNaughtonYamadaAutomata.is_final exampleAStarB s)
            {0} ((posUniverse exampleAStarB).card + 1)) :=
  ⟨by decide, by decide, my_absorbing exampleAStarB,
    c8_all_states exampleAStarB.symbolsL
      (McNaughtonYamadaAutomata.transition exampleAStarB)
      (fun s => decide (s = ∅))
      (McNaughtonYamadaAutomata.is_final exampleAStarB) {0}
      (posUniverse exampleAStarB) (by decide) (by decide)
      (my_absorbing exampleAStarB)⟩

/-! ## The minimised automata accept the original language (for C4) -/

theorem dfab_explored {σ : Type} [DecidableEq σ] (d : DFAb σ)
    (U : Finset σ) (hU0 : d.initial ∈ U)
    (hUc : ∀ s ∈ U, ∀ a ∈ d.symbols, d.transition s a ∈ U) :
    d.initial ∈ d.all_states (U.card + 1) ∧
      (∀ p ∈ d.all_states (U.card + 1), ∀ a ∈ d.symbols,
        d.keep (d.transition p a) = true →
          d.transition p a ∈ d.all_states (U.card + 1)) := by
  constructor
  · rw [DFAb.all_states]
    exact (allStates_mem_iff hU0 hUc _).mpr .init
  · intro p hp a ha hk
    rw [DFAb.all_states] at hp ⊢
    exact (allStates_mem_iff hU0 hUc _).mpr
      (.step ((allStates_mem_iff hU0 hUc p).mp hp) ha hk)

theorem position_det_universe (m : Node) :
    (PositionAutomata.nfa m).subset_determinise.initial ∈ posUniverse m ∧
      ∀ S ∈ posUniverse m,
        ∀ a ∈ (PositionAutomata.nfa m).subset_determinise.symbols,
          (PositionAutomata.nfa m).subset_determinise.transition S a ∈
            posUniverse m := by
  constructor
  · rw [posUniverse, Finset.mem_powerset]
    intro i hi
    rw [show (PositionAutomata.nfa m).subset_determinise.initial =
      ({0} : Finset ℕ) from rfl, Finset.mem_singleton] at hi
    rw [hi]
    simp
  · intro S _ a _
    rw [posUniverse, Finset.mem_powerset]
    intro i hi
    simp only [NFAb.subset_determinise, PositionAutomata.nfa,
      Finset.mem_biUnion] at hi
    obtain ⟨s, _, hsel⟩ := hi
    exact Finset.mem_union_left _
      (select_subset_posDom m _ a (by
        simpa [PositionAutomata.transition] using hsel))

theorem position_det_miss (m : Node) : ∀ (S : Finset ℕ) (a : Char),
    a ∉ (PositionAutomata.nfa m).subset_determinise.symbols →
      (PositionAutomata.nfa m).subset_determinise.isEmpty
          ((PositionAutomata.nfa m).subset_determinise.transition S a) =
          true ∧
        (PositionAutomata.nfa m).subset_determinise.is_final
          ((PositionAutomata.nfa m).subset_determinise.transition S a) =
          false := by
  intro S a ha
  have htriv : (PositionAutomata.nfa m).subset_determinise.transition S a =
      ∅ := by
    simp only [NFAb.subset_determinise, PositionAutomata.nfa]
    rw [Finset.eq_empty_iff_forall_not_mem]
    intro i hi
    rw [Finset.mem_biUnion] at hi
    obtain ⟨s, _, hsel⟩ := hi
    rw [PositionAutomata.transition,
      select_empty_of_not_mem (by simpa [NFAb.subset_determinise,
        PositionAutomata.nfa] using ha)] at hsel
    simp at hsel
  rw [htriv]
  constructor
  · simp [NFAb.subset_determinise]
  · simp [NFAb.subset_determinise]

theorem position_minimize_accepts {n : Node} (hd : posDisjoint n)
    (h0 : 0 ∉ n.posDom) (w : List Char) :
    (PositionAutomata.minimize n).accepts w =
      PositionAutomata.accepts n w := by
  obtain ⟨hU0, hUc⟩ := position_det_universe n.reverse
  obtain ⟨hinit, hclo⟩ :=
    dfab_explored (PositionAutomata.nfa n.reverse).subset_determinise
      (posUniverse n.reverse) hU0 hUc
  rw [PositionAutomata.minimize,
    reverse_det_accepts _ _ hinit hclo
      (det_absorbing (PositionAutomata.nfa n.reverse))
      (position_det_miss n.reverse) w,
    det_accepts]
  rw [show (PositionAutomata.nfa n.reverse).accepts w.reverse =
    PositionAutomata.accepts n.reverse w.reverse from rfl]
  rw [position_accepts_reverse hd h0 w.reverse]
  simp

theorem follow_det_universe (m : Node) :
    (FollowAutomata.nfa m).subset_determinise.initial ∈
        (folStatesU m).powerset ∧
      ∀ S ∈ (folStatesU m).powerset,
        ∀ a ∈ (FollowAutomata.nfa m).subset_determinise.symbols,
          (FollowAutomata.nfa m).subset_determinise.transition S a ∈
            (folStatesU m).powerset := by
  constructor
  · rw [Finset.mem_powerset]
    intro fs hfs
    rw [show (FollowAutomata.nfa m).subset_determinise.initial =
      {FollowAutomata.follow_state m 0} from rfl, Finset.mem_singleton] at hfs
    rw [hfs, folStatesU]
    exact Finset.mem_insert_self _ _
  · intro S _ a _
    rw [Finset.mem_powerset]
    intro fs hfs
    simp only [NFAb.subset_determinise, FollowAutomata.nfa,
      Finset.mem_biUnion] at hfs
    obtain ⟨s, _, hsel⟩ := hfs
    rw [FollowAutomata.transition, Finset.mem_image] at hsel
    obtain ⟨j, hj, rfl⟩ := hsel
    rw [folStatesU]
    refine Finset.mem_insert_of_mem (Finset.mem_image_of_mem _ ?_)
    exact select_subset_posDom m _ a hj

theorem follow_det_miss (m : Node) : ∀ (S : Finset FollowState) (a : Char),
    a ∉ (FollowAutomata.nfa m).subset_determinise.symbols →
      (FollowAutomata.nfa m).subset_determinise.isEmpty
          ((FollowAutomata.nfa m).subset_determinise.transition S a) =
          true ∧
        (FollowAutomata.nfa m).subset_determinise.is_final
          ((FollowAutomata.nfa m).subset_determinise.transition S a) =
          false := by
  intro S a ha
  have htriv : (FollowAutomata.nfa m).subset_determinise.transition S a =
      ∅ := by
    simp only [NFAb.subset_determinise, FollowAutomata.nfa]
    rw [Finset.eq_empty_iff_forall_not_mem]
    intro fs hfs
    rw [Finset.mem_biUnion] at hfs
    obtain ⟨s, _, hsel⟩ := hfs
    rw [FollowAutomata.transition,
      select_empty_of_not_mem (by simpa [NFAb.subset_determinise,
        FollowAutomata.nfa] using ha)] at hsel
    simp at hsel
  rw [htriv]
  constructor
  · simp [NFAb.subset_determinise]
  · simp [NFAb.subset_determinise]

theorem follow_minimize_accepts {n : Node} (hd : posDisjoint n)
    (h0 : 0 ∉ n.posDom) (w : List Char) :
    (FollowAutomata.minimize n).accepts w = FollowAutomata.accepts n w := by
  obtain ⟨hU0, hUc⟩ := follow_det_universe n.reverse
  obtain ⟨hinit, hclo⟩ :=
    dfab_explored (FollowAutomata.nfa n.reverse).subset_determinise
      ((folStatesU n.reverse).powerset) hU0 hUc
  rw [FollowAutomata.minimize,
    reverse_det_accepts _ _ hinit hclo
      (det_absorbing (FollowAutomata.nfa n.reverse))
      (follow_det_miss n.reverse) w,
    det_accepts]
  rw [show (FollowAutomata.nfa n.reverse).accepts w.reverse =
    FollowAutomata.accepts n.reverse w.reverse from rfl]
  rw [follow_eq_position, position_accepts_reverse hd h0 w.reverse,
    ← follow_eq_position]
  simp

theorem my_dfa_universe (m : Node) :
    (McNaughtonYamadaAutomata.dfa m).initial ∈ posUniverse m ∧
      ∀ S ∈ posUniverse m, ∀ a ∈ (McNaughtonYamadaAutomata.dfa m).symbols,
        (McNaughtonYamadaAutomata.dfa m).transition S a ∈ posUniverse m := by
  constructor
  · rw [posUniverse, Finset.mem_powerset]
    intro i hi
    rw [show (McNaughtonYamadaAutomata.dfa m).initial = {0} from rfl,
      Finset.mem_singleton] at hi
    rw [hi]
    simp
  · intro S _ a _
    rw [posUniverse, Finset.mem_powerset]
    intro i hi
    exact Finset.mem_union_left _ (select_subset_posDom m _ a hi)

theorem my_dfa_miss (m : Node) : ∀ (S : Finset ℕ) (a : Char),
    a ∉ (McNaughtonYamadaAutomata.dfa m).symbols →
      (McNaughtonYamadaAutomata.dfa m).isEmpty
          ((McNaughtonYamadaAutomata.dfa m).transition S a) = true ∧
        (McNaughtonYamadaAutomata.dfa m).is_final
          ((McNaughtonYamadaAutomata.dfa m).transition S a) = false := by
  intro S a ha
  have htriv : (McNaughtonYamadaAutomata.dfa m).transition S a = ∅ :=
    select_empty_of_not_mem (by simpa [McNaughtonYamadaAutomata.dfa] using ha) _
  rw [htriv]
  constructor
  · simp [McNaughtonYamadaAutomata.dfa]
  · simp [McNaughtonYamadaAutomata.dfa, McNaughtonYamadaAutomata.is_final]

theorem my_minimize_accepts {n : Node} (hd : posDisjoint n)
    (h0 : 0 ∉ n.posDom) (w : List Char) :
    (McNaughtonYamadaAutomata.minimize n).accepts w =
      McNaughtonYamadaAutomata.accepts n w := by
  obtain ⟨hU0, hUc⟩ := my_dfa_universe n.reverse
  obtain ⟨hinit, hclo⟩ :=
    dfab_explored (McNaughtonYamadaAutomata.dfa n.reverse)
      (posUniverse n.reverse) hU0 hUc
  rw [McNaughtonYamadaAutomata.minimize,
    reverse_det_accepts _ _ hinit hclo (my_absorbing n.reverse)
      (my_dfa_miss n.reverse) w]
  rw [show (McNaughtonYamadaAutomata.dfa n.reverse).accepts w.reverse =
    McNaughtonYamadaAutomata.accepts n.reverse w.reverse from rfl]
  rw [← position_eq_mcnaughton, position_accepts_reverse hd h0 w.reverse,
    position_eq_mcnaughton]
  simp

theorem mb_dfa_universe (m : Node) :
    (MarkBeforeAutomata.dfa m).initial ∈ mbUniverse m ∧
      ∀ fs ∈ mbUniverse m, ∀ a ∈ (MarkBeforeAutomata.dfa m).symbols,
        (MarkBeforeAutomata.dfa m).transition fs a ∈ mbUniverse m := by
  constructor
  · exact Finset.mem_insert_self _ _
  · intro fs _ a _
    rw [mbUniverse]
    refine Finset.mem_insert_of_mem ?_
    rw [Finset.mem_biUnion]
    refine ⟨(MarkBeforeAutomata.transition m fs a).follow,
      Finset.mem_powerset.mpr ?_, ?_⟩
    · rw [show (MarkBeforeAutomata.transition m fs a).follow =
        FromNode.follow_set m (FromNode.select m fs.follow a) from rfl]
      exact follow_set_subset_posDom m _
    · simp only [Finset.mem_insert, Finset.mem_singleton]
      cases hb : (MarkBeforeAutomata.transition m fs a).final
      · refine Or.inr ?_
        rw [← hb]
        rfl
      · refine Or.inl ?_
        rw [← hb]
        rfl

theorem mb_dfa_miss (m : Node) : ∀ (fs : FollowState) (a : Char),
    a ∉ (MarkBeforeAutomata.dfa m).symbols →
      (MarkBeforeAutomata.dfa m).isEmpty
          ((MarkBeforeAutomata.dfa m).transition fs a) = true ∧
        (MarkBeforeAutomata.dfa m).is_final
          ((MarkBeforeAutomata.dfa m).transition fs a) = false := by
  intro fs a ha
  have hsel : FromNode.select m fs.follow a = ∅ :=
    select_empty_of_not_mem (by simpa [MarkBeforeAutomata.dfa] using ha) _
  constructor
  · simp [MarkBeforeAutomata.dfa, MarkBeforeAutomata.transition, hsel,
      FromNode.follow_set]
  · simp [MarkBeforeAutomata.dfa, MarkBeforeAutomata.transition, hsel,
      MarkBeforeAutomata.set_finality]

theorem mb_minimize_accepts {n : Node} (hd : posDisjoint n)
    (h0 : 0 ∉ n.posDom) (w : List Char) :
    (MarkBeforeAutomata.minimize n).accepts w =
      MarkBeforeAutomata.accepts n w := by
  obtain ⟨hU0, hUc⟩ := mb_dfa_universe n.reverse
  obtain ⟨hinit, hclo⟩ :=
    dfab_explored (MarkBeforeAutomata.dfa n.reverse)
      (mbUniverse n.reverse) hU0 hUc
  rw [MarkBeforeAutomata.minimize,
    reverse_det_accepts _ _ hinit hclo (mb_absorbing n.reverse)
      (mb_dfa_miss n.reverse) w]
  rw [show (MarkBeforeAutomata.dfa n.reverse).accepts w.reverse =
    MarkBeforeAutomata.accepts n.reverse w.reverse from rfl]
  rw [markbefore_eq_mcnaughton, ← position_eq_mcnaughton,
    position_accepts_reverse hd h0 w.reverse, position_eq_mcnaughton,
    ← markbefore_eq_mcnaughton]
  simp

/-! ## Minimality of the explored state count (for C4 and C5)

The reachable states of the double-reversal construction are in
bijection with the nonempty residuals of the language (plus the initial
state), so their number is a lower bound for the live state count of
any deterministic acceptor of the same language. -/

theorem keep_absorbing_of {σ : Type} (d : DFAb σ)
    (habs : ∀ s a, d.isEmpty s = true →
      d.isEmpty (d.transition s a) = true ∧
        d.is_final (d.transition s a) = false) :
    ∀ s a, d.keep s = false → d.keep (d.transition s a) = false := by
  intro s a h
  rw [DFAb.keep, Bool.or_eq_false_iff, Bool.not_eq_false'] at h ⊢
  exact ⟨(habs s a h.1).1, (habs s a h.1).2⟩

/-- Characterisation of the explored state set of a bundle DFA. -/
theorem dfab_char {σ : Type} [DecidableEq σ] (d : DFAb σ) (U : Finset σ)
    (hU0 : d.initial ∈ U)
    (hUc : ∀ s ∈ U, ∀ a ∈ d.symbols, d.transition s a ∈ U)
    (habs : ∀ s a, d.isEmpty s = true →
      d.isEmpty (d.transition s a) = true ∧
        d.is_final (d.transition s a) = false) (q : σ) :
    q ∈ d.all_states (U.card + 1) ↔
      (∃ x : List Char, (∀ c ∈ x, c ∈ d.symbols) ∧
          List.foldl d.transition d.initial x = q) ∧
        (q = d.initial ∨ d.keep q = true) := by
  rw [DFAb.all_states, allStates_mem_iff hU0 hUc,
    bfsReach_iff (keep_absorbing_of d habs)]

theorem reverse_det_universe {σ : Type} [DecidableEq σ] (d : DFAb σ)
    (fuel : ℕ) :
    (d.reverse fuel).subset_determinise.initial ∈
        (d.all_states fuel).powerset ∧
      ∀ S ∈ (d.all_states fuel).powerset,
        ∀ a ∈ (d.reverse fuel).subset_determinise.symbols,
          (d.reverse fuel).subset_determinise.transition S a ∈
            (d.all_states fuel).powerset := by
  constructor
  · rw [Finset.mem_powerset]
    exact Finset.filter_subset _ _
  · intro S _ a _
    rw [Finset.mem_powerset]
    intro p hp
    simp only [NFAb.subset_determinise, DFAb.reverse,
      Finset.mem_biUnion] at hp
    obtain ⟨q, _, hpq⟩ := hp
    exact (Finset.mem_filter.mp hpq).1

theorem rev_det_transition_subset {σ : Type} [DecidableEq σ] (d : DFAb σ)
    (fuel : ℕ) (S : Finset σ) (a : Char) :
    (d.reverse fuel).subset_determinise.transition S a ⊆
      d.all_states fuel := by
  intro p hp
  simp only [NFAb.subset_determinise, DFAb.reverse, Finset.mem_biUnion] at hp
  obtain ⟨q, _, hpq⟩ := hp
  exact (Finset.mem_filter.mp hpq).1

theorem mem_rev_det_transition {σ : Type} [DecidableEq σ] (d : DFAb σ)
    (fuel : ℕ) (S : Finset σ) (a : Char) (p : σ) :
    p ∈ (d.reverse fuel).subset_determinise.transition S a ↔
      p ∈ d.all_states fuel ∧ d.transition p a ∈ S := by
  simp only [NFAb.subset_determinise, DFAb.reverse, Finset.mem_biUnion,
    Finset.mem_filter]
  constructor
  · rintro ⟨q, hq, hpA, rfl⟩
    exact ⟨hpA, hq⟩
  · rintro ⟨hpA, hq⟩
    exact ⟨d.transition p a, hq, hpA, rfl⟩

theorem rev_det_transition_empty {σ : Type} [DecidableEq σ] (d : DFAb σ)
    (fuel : ℕ) (a : Char) :
    (d.reverse fuel).subset_determinise.transition ∅ a = ∅ := by
  simp [NFAb.subset_determinise]

theorem rev_det_foldl_empty {σ : Type} [DecidableEq σ] (d : DFAb σ)
    (fuel : ℕ) (v : List Char) :
    List.foldl (d.reverse fuel).subset_determinise.transition ∅ v = ∅ := by
  induction v with
  | nil => rfl
  | cons a v ih => simpa [rev_det_transition_empty] using ih

theorem rev_det_final_empty {σ : Type} [DecidableEq σ] (d : DFAb σ)
    (fuel : ℕ) :
    (d.reverse fuel).subset_determinise.is_final ∅ = false := by
  simp [NFAb.subset_determinise]

/-- Every state of the double-reversal DFA reached by a word with a
live residual is an explored state. -/
theorem live_mem_min {σ : Type} [DecidableEq σ] (d : DFAb σ) (fuel : ℕ)
    (hmiss : ∀ s a, a ∉ d.symbols →
      d.isEmpty (d.transition s a) = true ∧
        d.is_final (d.transition s a) = false)
    (hA1keep : ∀ q ∈ d.all_states fuel, q = d.initial ∨ d.keep q = true)
    (hinitne : d.isEmpty d.initial = false)
    (u : List Char)
    (hlive : ∃ v, ((d.reverse fuel).subset_determinise).accepts (u ++ v) =
      true) :
    List.foldl (d.reverse fuel).subset_determinise.transition
        (d.reverse fuel).subset_determinise.initial u ∈
      (d.reverse fuel).subset_determinise.all_states
        ((d.all_states fuel).powerset.card + 1) := by
  obtain ⟨hU20, hU2c⟩ := reverse_det_universe d fuel
  have hlive2 : ∃ v,
      (d.reverse fuel).subset_determinise.is_final
        (List.foldl (d.reverse fuel).subset_determinise.transition
          (List.foldl (d.reverse fuel).subset_determinise.transition
            (d.reverse fuel).subset_determinise.initial u) v) = true := by
    obtain ⟨v, hv⟩ := hlive
    rw [DFAb.accepts, dfaAccepts_eq_fold _ _ _
      (det_absorbing (d.reverse fuel)), List.foldl_append] at hv
    exact ⟨v, hv⟩
  have aux : ∀ (u2 : List Char) (T : Finset σ),
      BfsReach (d.reverse fuel).subset_determinise.symbols
        (d.reverse fuel).subset_determinise.transition
        (d.reverse fuel).subset_determinise.keep
        (d.reverse fuel).subset_determinise.initial T →
      (∃ v, (d.reverse fuel).subset_determinise.is_final
        (List.foldl (d.reverse fuel).subset_determinise.transition
          (List.foldl (d.reverse fuel).subset_determinise.transition T u2)
          v) = true) →
      BfsReach (d.reverse fuel).subset_determinise.symbols
        (d.reverse fuel).subset_determinise.transition
        (d.reverse fuel).subset_determinise.keep
        (d.reverse fuel).subset_determinise.initial
        (List.foldl (d.reverse fuel).subset_determinise.transition T u2) := by
    intro u2
    induction u2 with
    | nil => intro T hT _; exact hT
    | cons c u3 ih =>
        intro T hT hlv
        simp only [List.foldl_cons] at hlv ⊢
        by_cases hc : c ∈ (d.reverse fuel).subset_determinise.symbols
        · by_cases hk : (d.reverse fuel).subset_determinise.keep
              ((d.reverse fuel).subset_determinise.transition T c) = true
          · exact ih _ (.step hT hc hk) hlv
          · exfalso
            have hkf : (d.reverse fuel).subset_determinise.keep
                ((d.reverse fuel).subset_determinise.transition T c) =
                false := by
              cases hx : (d.reverse fuel).subset_determinise.keep
                  ((d.reverse fuel).subset_determinise.transition T c)
              · rfl
              · exact absurd hx hk
            rw [DFAb.keep, Bool.or_eq_false_iff, Bool.not_eq_false'] at hkf
            have hTc : (d.reverse fuel).subset_determinise.transition T c =
                ∅ := by
              have h1 := hkf.1
              simpa [NFAb.subset_determinise] using h1
            obtain ⟨v, hv⟩ := hlv
            rw [hTc, rev_det_foldl_empty, rev_det_foldl_empty,
              rev_det_final_empty] at hv
            simp at hv
        · exfalso
          have hTc : (d.reverse fuel).subset_determinise.transition T c =
              ∅ := by
            rw [Finset.eq_empty_iff_forall_not_mem]
            intro p hp
            rw [mem_rev_det_transition] at hp
            obtain ⟨hpA, hpc⟩ := hp
            have hTsub : T ⊆ d.all_states fuel := by
              cases hT with
              | init => exact Finset.filter_subset _ _
              | step h1 h2 h3 => exact rev_det_transition_subset d fuel _ _
            have hmem : d.transition p c ∈ d.all_states fuel := hTsub hpc
            obtain ⟨he, hf⟩ := hmiss p c hc
            rcases hA1keep _ hmem with hi | hkp
            · rw [hi] at he
              rw [he] at hinitne
              simp at hinitne
            · rw [DFAb.keep, he, hf] at hkp
              simp at hkp
          obtain ⟨v, hv⟩ := hlv
          rw [hTc, rev_det_foldl_empty, rev_det_foldl_empty,
            rev_det_final_empty] at hv
          simp at hv
  have hreach := aux u _ .init hlive2
  rw [DFAb.all_states]
  exact (allStates_mem_iff hU20 hU2c _).mpr hreach

/-- Core minimality bound: the explored state count of the
double-reversal DFA is at most the size of any set of competitor
states that contains the competitor's initial state and its states
reached by words with a nonempty residual, for any deterministic
acceptor of the same language. -/
theorem min_card_le {σ τ : Type} [DecidableEq σ] (d : DFAb σ) (fuel : ℕ)
    (hinit : d.initial ∈ d.all_states fuel)
    (hclo : ∀ p ∈ d.all_states fuel, ∀ a ∈ d.symbols,
      d.keep (d.transition p a) = true → d.transition p a ∈ d.all_states fuel)
    (habs : ∀ s a, d.isEmpty s = true →
      d.isEmpty (d.transition s a) = true ∧ d.is_final (d.transition s a) = false)
    (hmiss : ∀ s a, a ∉ d.symbols →
      d.isEmpty (d.transition s a) = true ∧
        d.is_final (d.transition s a) = false)
    (hreach : ∀ p ∈ d.all_states fuel, ∃ x : List Char,
      (∀ c ∈ x, c ∈ d.symbols) ∧ List.foldl d.transition d.initial x = p)
    (δc : τ → Char → τ) (q0 : τ) (Fc : τ → Bool) (S : Finset τ)
    (hlang : ∀ v, Fc (List.foldl δc q0 v) =
      ((d.reverse fuel).subset_determinise).accepts v)
    (hS0 : q0 ∈ S)
    (hSlive : ∀ u, (∃ v,
        ((d.reverse fuel).subset_determinise).accepts (u ++ v) = true) →
      List.foldl δc q0 u ∈ S) :
    ((d.reverse fuel).subset_determinise.all_states
      ((d.all_states fuel).powerset.card + 1)).card ≤ S.card := by
  classical
  obtain ⟨hU20, hU2c⟩ := reverse_det_universe d fuel
  have hchar : ∀ T ∈ (d.reverse fuel).subset_determinise.all_states
      ((d.all_states fuel).powerset.card + 1),
      ∃ u, List.foldl (d.reverse fuel).subset_determinise.transition
          (d.reverse fuel).subset_determinise.initial u = T ∧
        (T = (d.reverse fuel).subset_determinise.initial → u = []) := by
    intro T hT
    by_cases hTi : T = (d.reverse fuel).subset_determinise.initial
    · exact ⟨[], by simp [hTi], fun _ => rfl⟩
    · rw [DFAb.all_states, allStates_mem_iff hU20 hU2c,
        bfsReach_iff (keep_absorbing_of _ (det_absorbing _))] at hT
      obtain ⟨⟨u, _, hu⟩, _⟩ := hT
      exact ⟨u, hu, fun h => absurd h hTi⟩
  have hmemchar : ∀ T ∈ (d.reverse fuel).subset_determinise.all_states
      ((d.all_states fuel).powerset.card + 1),
      T = (d.reverse fuel).subset_determinise.initial ∨
        (d.reverse fuel).subset_determinise.keep T = true := by
    intro T hT
    rw [DFAb.all_states, allStates_mem_iff hU20 hU2c,
      bfsReach_iff (keep_absorbing_of _ (det_absorbing _))] at hT
    exact hT.2
  have hkeepempty : (d.reverse fuel).subset_determinise.keep
      (∅ : Finset σ) = false := by
    simp [DFAb.keep, NFAb.subset_determinise]
  choose uOf huOf1 huOf2 using hchar
  choose xOf hxOf1 hxOf2 using hreach
  have hdacc : ∀ v, d.accepts v =
      d.is_final (List.foldl d.transition d.initial v) := by
    intro v
    rw [DFAb.accepts, dfaAccepts_eq_fold _ _ _ habs]
  have hkey : ∀ (u : List Char) (p : σ) (hp : p ∈ d.all_states fuel),
      d.is_final (List.foldl d.transition p u.reverse) =
        Fc (List.foldl δc q0 (u ++ (xOf p hp).reverse)) := by
    intro u p hp
    rw [hlang, reverse_det_accepts d fuel hinit hclo habs hmiss,
      List.reverse_append, List.reverse_reverse, hdacc, List.foldl_append,
      hxOf2 p hp]
  have hfold := reverse_det_fold d fuel hclo habs hmiss
  set g : Finset σ → τ := fun T =>
    if h : T ∈ (d.reverse fuel).subset_determinise.all_states
        ((d.all_states fuel).powerset.card + 1) then
      List.foldl δc q0 (uOf T h)
    else q0 with hg
  refine Finset.card_le_card_of_injOn g ?_ ?_
  · intro T hT
    rw [hg]
    simp only [dif_pos hT]
    by_cases hT0 : T = (∅ : Finset σ)
    · have hTi : T = (d.reverse fuel).subset_determinise.initial := by
        rcases hmemchar T hT with h | h
        · exact h
        · rw [hT0, hkeepempty] at h
          simp at h
      rw [huOf2 T hT hTi]
      simpa using hS0
    · obtain ⟨p, hpT⟩ := Finset.nonempty_iff_ne_empty.mpr hT0
      have hTfold : T = (d.all_states fuel).filter
          (fun p => d.is_final
            (List.foldl d.transition p (uOf T hT).reverse) = true) :=
        (huOf1 T hT).symm.trans (hfold (uOf T hT))
      rw [hTfold, Finset.mem_filter] at hpT
      obtain ⟨hpA, hpfin⟩ := hpT
      refine hSlive (uOf T hT) ⟨(xOf p hpA).reverse, ?_⟩
      rw [← hlang, ← hkey _ p hpA]
      exact hpfin
  · intro T1 hT1 T2 hT2 hgeq
    rw [hg] at hgeq
    simp only [Finset.mem_coe] at hT1 hT2
    simp only [dif_pos hT1, dif_pos hT2] at hgeq
    have hfold1 : T1 = (d.all_states fuel).filter
        (fun p => d.is_final
          (List.foldl d.transition p (uOf T1 hT1).reverse) = true) :=
      (huOf1 T1 hT1).symm.trans (hfold (uOf T1 hT1))
    have hfold2 : T2 = (d.all_states fuel).filter
        (fun p => d.is_final
          (List.foldl d.transition p (uOf T2 hT2).reverse) = true) :=
      (huOf1 T2 hT2).symm.trans (hfold (uOf T2 hT2))
    rw [hfold1, hfold2]
    ext p
    simp only [Finset.mem_filter, and_congr_right_iff]
    intro hpA
    rw [hkey _ p hpA, hkey _ p hpA, List.foldl_append, List.foldl_append,
      hgeq]

theorem first_nonempty : ∀ n : Node, n.first.Nonempty := by
  intro n
  induction n with
  | Symbol v k => exact ⟨k, by simp [Node.first]⟩
  | Star c ih => exact ih
  | Concat l r ihl ihr =>
      rw [Node.first]
      split
      · exact ihl.mono Finset.subset_union_left
      · exact ihl
  | Alt l r ihl ihr =>
      rw [Node.first]
      exact ihl.mono Finset.subset_union_left

theorem position_min_le {n : Node} (hd : posDisjoint n) (h0 : 0 ∉ n.posDom)
    {τ : Type} (δc : τ → Char → τ) (q0 : τ) (Fc : τ → Bool) (S : Finset τ)
    (hlang : ∀ v, Fc (List.foldl δc q0 v) = PositionAutomata.accepts n v)
    (hS0 : q0 ∈ S)
    (hSlive : ∀ u, (∃ v, PositionAutomata.accepts n (u ++ v) = true) →
      List.foldl δc q0 u ∈ S) :
    (PositionAutomata.minStates n).card ≤ S.card := by
  obtain ⟨hU0, hUc⟩ := position_det_universe n.reverse
  obtain ⟨hinit, hclo⟩ :=
    dfab_explored (PositionAutomata.nfa n.reverse).subset_determinise
      (posUniverse n.reverse) hU0 hUc
  have habs := det_absorbing (PositionAutomata.nfa n.reverse)
  have hmiss := position_det_miss n.reverse
  have hreach : ∀ p ∈ (PositionAutomata.nfa n.reverse).subset_determinise.all_states
      ((posUniverse n.reverse).card + 1), ∃ x : List Char,
      (∀ c ∈ x, c ∈ (PositionAutomata.nfa n.reverse).subset_determinise.symbols) ∧
        List.foldl (PositionAutomata.nfa n.reverse).subset_determinise.transition
          (PositionAutomata.nfa n.reverse).subset_determinise.initial x = p :=
    fun p hp => ((dfab_char _ _ hU0 hUc habs p).mp hp).1
  unfold PositionAutomata.minStates PositionAutomata.minimize
    PositionAutomata.detStates
  refine min_card_le _ _ hinit hclo habs hmiss hreach δc q0 Fc S ?_ hS0 ?_
  · intro v
    rw [hlang v]
    exact (position_minimize_accepts hd h0 v).symm
  · rintro u ⟨v, hv⟩
    refine hSlive u ⟨v, ?_⟩
    rw [← position_minimize_accepts hd h0 (u ++ v)]
    exact hv

theorem position_as_competitor {n : Node} (hd : posDisjoint n)
    (h0 : 0 ∉ n.posDom) :
    (∀ v, (PositionAutomata.minimize n).is_final
        (List.foldl (PositionAutomata.minimize n).transition
          (PositionAutomata.minimize n).initial v) =
      PositionAutomata.accepts n v) ∧
      (PositionAutomata.minimize n).initial ∈ PositionAutomata.minStates n ∧
      (∀ u, (∃ v, PositionAutomata.accepts n (u ++ v) = true) →
        List.foldl (PositionAutomata.minimize n).transition
          (PositionAutomata.minimize n).initial u ∈
          PositionAutomata.minStates n) := by
  obtain ⟨hU0, hUc⟩ := position_det_universe n.reverse
  obtain ⟨hU20, hU2c⟩ :=
    reverse_det_universe (PositionAutomata.nfa n.reverse).subset_determinise
      ((posUniverse n.reverse).card + 1)
  obtain ⟨hinit2, _⟩ :=
    dfab_explored (PositionAutomata.minimize n)
      ((PositionAutomata.nfa n.reverse).subset_determinise.all_states
        ((posUniverse n.reverse).card + 1)).powerset hU20 hU2c
  have habs := det_absorbing (PositionAutomata.nfa n.reverse)
  have hA1keep : ∀ q ∈ (PositionAutomata.nfa n.reverse).subset_determinise.all_states
      ((posUniverse n.reverse).card + 1),
      q = (PositionAutomata.nfa n.reverse).subset_determinise.initial ∨
        (PositionAutomata.nfa n.reverse).subset_determinise.keep q = true :=
    fun q hq => ((dfab_char _ _ hU0 hUc habs q).mp hq).2
  have hinitne : (PositionAutomata.nfa n.reverse).subset_determinise.isEmpty
      (PositionAutomata.nfa n.reverse).subset_determinise.initial = false := by
    simp [NFAb.subset_determinise, PositionAutomata.nfa]
  refine ⟨?_, hinit2, ?_⟩
  · intro v
    rw [← position_minimize_accepts hd h0 v,
      show PositionAutomata.minimize n =
        ((PositionAutomata.nfa n.reverse).subset_determinise.reverse
          ((posUniverse n.reverse).card + 1)).subset_determinise from rfl,
      DFAb.accepts, dfaAccepts_eq_fold _ _ _ (det_absorbing _)]
  · intro u hu
    have hlive : ∃ v, ((PositionAutomata.nfa n.reverse).subset_determinise.reverse
        ((posUniverse n.reverse).card + 1)).subset_determinise.accepts
        (u ++ v) = true := by
      obtain ⟨v, hv⟩ := hu
      exact ⟨v, by rw [show ((PositionAutomata.nfa n.reverse).subset_determinise.reverse
        ((posUniverse n.reverse).card + 1)).subset_determinise =
          PositionAutomata.minimize n from rfl,
        position_minimize_accepts hd h0 (u ++ v)]; exact hv⟩
    exact live_mem_min _ _ (position_det_miss n.reverse) hA1keep hinitne u hlive

theorem follow_min_le {n : Node} (hd : posDisjoint n) (h0 : 0 ∉ n.posDom)
    {τ : Type} (δc : τ → Char → τ) (q0 : τ) (Fc : τ → Bool) (S : Finset τ)
    (hlang : ∀ v, Fc (List.foldl δc q0 v) = PositionAutomata.accepts n v)
    (hS0 : q0 ∈ S)
    (hSlive : ∀ u, (∃ v, PositionAutomata.accepts n (u ++ v) = true) →
      List.foldl δc q0 u ∈ S) :
    (FollowAutomata.minStates n).card ≤ S.card := by
  obtain ⟨hU0, hUc⟩ := follow_det_universe n.reverse
  obtain ⟨hinit, hclo⟩ :=
    dfab_explored (FollowAutomata.nfa n.reverse).subset_determinise
      ((folStatesU n.reverse).powerset) hU0 hUc
  have habs := det_absorbing (FollowAutomata.nfa n.reverse)
  have hmiss := follow_det_miss n.reverse
  have hreach : ∀ p ∈ (FollowAutomata.nfa n.reverse).subset_determinise.all_states
      (((folStatesU n.reverse).powerset).card + 1), ∃ x : List Char,
      (∀ c ∈ x, c ∈ (FollowAutomata.nfa n.reverse).subset_determinise.symbols) ∧
        List.foldl (FollowAutomata.nfa n.reverse).subset_determinise.transition
          (FollowAutomata.nfa n.reverse).subset_determinise.initial x = p :=
    fun p hp => ((dfab_char _ _ hU0 hUc habs p).mp hp).1
  unfold FollowAutomata.minStates FollowAutomata.minimize
    FollowAutomata.detStates
  refine min_card_le _ _ hinit hclo habs hmiss hreach δc q0 Fc S ?_ hS0 ?_
  · intro v
    rw [hlang v, ← follow_eq_position]
    exact (follow_minimize_accepts hd h0 v).symm
  · rintro u ⟨v, hv⟩
    refine hSlive u ⟨v, ?_⟩
    rw [← follow_eq_position, ← follow_minimize_accepts hd h0 (u ++ v)]
    exact hv

theorem follow_as_competitor {n : Node} (hd : posDisjoint n)
    (h0 : 0 ∉ n.posDom) :
    (∀ v, (FollowAutomata.minimize n).is_final
        (List.foldl (FollowAutomata.minimize n).transition
          (FollowAutomata.minimize n).initial v) =
      PositionAutomata.accepts n v) ∧
      (FollowAutomata.minimize n).initial ∈ FollowAutomata.minStates n ∧
      (∀ u, (∃ v, PositionAutomata.accepts n (u ++ v) = true) →
        List.foldl (FollowAutomata.minimize n).transition
          (FollowAutomata.minimize n).initial u ∈
          FollowAutomata.minStates n) := by
  obtain ⟨hU0, hUc⟩ := follow_det_universe n.reverse
  obtain ⟨hU20, hU2c⟩ :=
    reverse_det_universe (FollowAutomata.nfa n.reverse).subset_determinise
      (((folStatesU n.reverse).powerset).card + 1)
  obtain ⟨hinit2, _⟩ :=
    dfab_explored (FollowAutomata.minimize n)
      ((FollowAutomata.nfa n.reverse).subset_determinise.all_states
        (((folStatesU n.reverse).powerset).card + 1)).powerset hU20 hU2c
  have habs := det_absorbing (FollowAutomata.nfa n.reverse)
  have hA1keep : ∀ q ∈ (FollowAutomata.nfa n.reverse).subset_determinise.all_states
      (((folStatesU n.reverse).powerset).card + 1),
      q = (FollowAutomata.nfa n.reverse).subset_determinise.initial ∨
        (FollowAutomata.nfa n.reverse).subset_determinise.keep q = true :=
    fun q hq => ((dfab_char _ _ hU0 hUc habs q).mp hq).2
  have hinitne : (FollowAutomata.nfa n.reverse).subset_determinise.isEmpty
      (FollowAutomata.nfa n.reverse).subset_determinise.initial = false := by
    simp [NFAb.subset_determinise, FollowAutomata.nfa]
  refine ⟨?_, hinit2, ?_⟩
  · intro v
    rw [← follow_eq_position, ← follow_minimize_accepts hd h0 v,
      show FollowAutomata.minimize n =
        ((FollowAutomata.nfa n.reverse).subset_determinise.reverse
          (((folStatesU n.reverse).powerset).card + 1)).subset_determinise from rfl,
      DFAb.accepts, dfaAccepts_eq_fold _ _ _ (det_absorbing _)]
  · intro u hu
    have hlive : ∃ v, ((FollowAutomata.nfa n.reverse).subset_determinise.reverse
        (((folStatesU n.reverse).powerset).card + 1)).subset_determinise.accepts
        (u ++ v) = true := by
      obtain ⟨v, hv⟩ := hu
      refine ⟨v, ?_⟩
      rw [show ((FollowAutomata.nfa n.reverse).subset_determinise.reverse
        (((folStatesU n.reverse).powerset).card + 1)).subset_determinise =
          FollowAutomata.minimize n from rfl,
        follow_minimize_accepts hd h0 (u ++ v), follow_eq_position]
      exact hv
    exact live_mem_min _ _ (follow_det_miss n.reverse) hA1keep hinitne u hlive

theorem my_min_le {n : Node} (hd : posDisjoint n) (h0 : 0 ∉ n.posDom)
    {τ : Type} (δc : τ → Char → τ) (q0 : τ) (Fc : τ → Bool) (S : Finset τ)
    (hlang : ∀ v, Fc (List.foldl δc q0 v) = PositionAutomata.accepts n v)
    (hS0 : q0 ∈ S)
    (hSlive : ∀ u, (∃ v, PositionAutomata.accepts n (u ++ v) = true) →
      List.foldl δc q0 u ∈ S) :
    (McNaughtonYamadaAutomata.minStates n).card ≤ S.card := by
  obtain ⟨hU0, hUc⟩ := my_dfa_universe n.reverse
  obtain ⟨hinit, hclo⟩ :=
    dfab_explored (McNaughtonYamadaAutomata.dfa n.reverse)
      (posUniverse n.reverse) hU0 hUc
  have habs := my_absorbing n.reverse
  have hmiss := my_dfa_miss n.reverse
  have hreach : ∀ p ∈ (McNaughtonYamadaAutomata.dfa n.reverse).all_states
      ((posUniverse n.reverse).card + 1), ∃ x : List Char,
      (∀ c ∈ x, c ∈ (McNaughtonYamadaAutomata.dfa n.reverse).symbols) ∧
        List.foldl (McNaughtonYamadaAutomata.dfa n.reverse).transition
          (McNaughtonYamadaAutomata.dfa n.reverse).initial x = p :=
    fun p hp => ((dfab_char _ _ hU0 hUc habs p).mp hp).1
  unfold McNaughtonYamadaAutomata.minStates McNaughtonYamadaAutomata.minimize
    McNaughtonYamadaAutomata.dfaStates
  refine min_card_le _ _ hinit hclo habs hmiss hreach δc q0 Fc S ?_ hS0 ?_
  · intro v
    rw [hlang v, position_eq_mcnaughton]
    exact (my_minimize_accepts hd h0 v).symm
  · rintro u ⟨v, hv⟩
    refine hSlive u ⟨v, ?_⟩
    rw [position_eq_mcnaughton, ← my_minimize_accepts hd h0 (u ++ v)]
    exact hv

theorem my_as_competitor {n : Node} (hd : posDisjoint n)
    (h0 : 0 ∉ n.posDom) :
    (∀ v, (McNaughtonYamadaAutomata.minimize n).is_final
        (List.foldl (McNaughtonYamadaAutomata.minimize n).transition
          (McNaughtonYamadaAutomata.minimize n).initial v) =
      PositionAutomata.accepts n v) ∧
      (McNaughtonYamadaAutomata.minimize n).initial ∈
        McNaughtonYamadaAutomata.minStates n ∧
      (∀ u, (∃ v, PositionAutomata.accepts n (u ++ v) = true) →
        List.foldl (McNaughtonYamadaAutomata.minimize n).transition
          (McNaughtonYamadaAutomata.minimize n).initial u ∈
          McNaughtonYamadaAutomata.minStates n) := by
  obtain ⟨hU0, hUc⟩ := my_dfa_universe n.reverse
  obtain ⟨hU20, hU2c⟩ :=
    reverse_det_universe (McNaughtonYamadaAutomata.dfa n.reverse)
      ((posUniverse n.reverse).card + 1)
  obtain ⟨hinit2, _⟩ :=
    dfab_explored (McNaughtonYamadaAutomata.minimize n)
      ((McNaughtonYamadaAutomata.dfa n.reverse).all_states
        ((posUniverse n.reverse).card + 1)).powerset hU20 hU2c
  have habs := my_absorbing n.reverse
  have hA1keep : ∀ q ∈ (McNaughtonYamadaAutomata.dfa n.reverse).all_states
      ((posUniverse n.reverse).card + 1),
      q = (McNaughtonYamadaAutomata.dfa n.reverse).initial ∨
        (McNaughtonYamadaAutomata.dfa n.reverse).keep q = true :=
    fun q hq => ((dfab_char _ _ hU0 hUc habs q).mp hq).2
  have hinitne : (McNaughtonYamadaAutomata.dfa n.reverse).isEmpty
      (McNaughtonYamadaAutomata.dfa n.reverse).initial = false := by
    simp [McNaughtonYamadaAutomata.dfa]
  refine ⟨?_, hinit2, ?_⟩
  · intro v
    rw [position_eq_mcnaughton, ← my_minimize_accepts hd h0 v,
      show McNaughtonYamadaAutomata.minimize n =
        ((McNaughtonYamadaAutomata.dfa n.reverse).reverse
          ((posUniverse n.reverse).card + 1)).subset_determinise from rfl,
      DFAb.accepts, dfaAccepts_eq_fold _ _ _ (det_absorbing _)]
  · intro u hu
    have hlive : ∃ v, ((McNaughtonYamadaAutomata.dfa n.reverse).reverse
        ((posUniverse n.reverse).card + 1)).subset_determinise.accepts
        (u ++ v) = true := by
      obtain ⟨v, hv⟩ := hu
      refine ⟨v, ?_⟩
      rw [show ((McNaughtonYamadaAutomata.dfa n.reverse).reverse
        ((posUniverse n.reverse).card + 1)).subset_determinise =
          McNaughtonYamadaAutomata.minimize n from rfl,
        my_minimize_accepts hd h0 (u ++ v), ← position_eq_mcnaughton]
      exact hv
    exact live_mem_min _ _ (my_dfa_miss n.reverse) hA1keep hinitne u hlive

theorem mb_min_le {n : Node} (hd : posDisjoint n) (h0 : 0 ∉ n.posDom)
    {τ : Type} (δc : τ → Char → τ) (q0 : τ) (Fc : τ → Bool) (S : Finset τ)
    (hlang : ∀ v, Fc (List.foldl δc q0 v) = PositionAutomata.accepts n v)
    (hS0 : q0 ∈ S)
    (hSlive : ∀ u, (∃ v, PositionAutomata.accepts n (u ++ v) = true) →
      List.foldl δc q0 u ∈ S) :
    (MarkBeforeAutomata.minStates n).card ≤ S.card := by
  obtain ⟨hU0, hUc⟩ := mb_dfa_universe n.reverse
  obtain ⟨hinit, hclo⟩ :=
    dfab_explored (MarkBeforeAutomata.dfa n.reverse)
      (mbUniverse n.reverse) hU0 hUc
  have habs := mb_absorbing n.reverse
  have hmiss := mb_dfa_miss n.reverse
  have hreach : ∀ p ∈ (MarkBeforeAutomata.dfa n.reverse).all_states
      ((mbUniverse n.reverse).card + 1), ∃ x : List Char,
      (∀ c ∈ x, c ∈ (MarkBeforeAutomata.dfa n.reverse).symbols) ∧
        List.foldl (MarkBeforeAutomata.dfa n.reverse).transition
          (MarkBeforeAutomata.dfa n.reverse).initial x = p :=
    fun p hp => ((dfab_char _ _ hU0 hUc habs p).mp hp).1
  unfold MarkBeforeAutomata.minStates MarkBeforeAutomata.minimize
    MarkBeforeAutomata.dfaStates
  refine min_card_le _ _ hinit hclo habs hmiss hreach δc q0 Fc S ?_ hS0 ?_
  · intro v
    rw [hlang v, position_eq_mcnaughton, ← markbefore_eq_mcnaughton]
    exact (mb_minimize_accepts hd h0 v).symm
  · rintro u ⟨v, hv⟩
    refine hSlive u ⟨v, ?_⟩
    rw [position_eq_mcnaughton, ← markbefore_eq_mcnaughton,
      ← mb_minimize_accepts hd h0 (u ++ v)]
    exact hv

theorem mb_as_competitor {n : Node} (hd : posDisjoint n)
    (h0 : 0 ∉ n.posDom) :
    (∀ v, (MarkBeforeAutomata.minimize n).is_final
        (List.foldl (MarkBeforeAutomata.minimize n).transition
          (MarkBeforeAutomata.minimize n).initial v) =
      PositionAutomata.accepts n v) ∧
      (MarkBeforeAutomata.minimize n).initial ∈
        MarkBeforeAutomata.minStates n ∧
      (∀ u, (∃ v, PositionAutomata.accepts n (u ++ v) = true) →
        List.foldl (MarkBeforeAutomata.minimize n).transition
          (MarkBeforeAutomata.minimize n).initial u ∈
          MarkBeforeAutomata.minStates n) := by
  obtain ⟨hU0, hUc⟩ := mb_dfa_universe n.reverse
  obtain ⟨hU20, hU2c⟩ :=
    reverse_det_universe (MarkBeforeAutomata.dfa n.reverse)
      ((mbUniverse n.reverse).card + 1)
  obtain ⟨hinit2, _⟩ :=
    dfab_explored (MarkBeforeAutomata.minimize n)
      ((MarkBeforeAutomata.dfa n.reverse).all_states
        ((mbUniverse n.reverse).card + 1)).powerset hU20 hU2c
  have habs := mb_absorbing n.reverse
  have hA1keep : ∀ q ∈ (MarkBeforeAutomata.dfa n.reverse).all_states
      ((mbUniverse n.reverse).card + 1),
      q = (MarkBeforeAutomata.dfa n.reverse).initial ∨
        (MarkBeforeAutomata.dfa n.reverse).keep q = true :=
    fun q hq => ((dfab_char _ _ hU0 hUc habs q).mp hq).2
  have hinitne : (MarkBeforeAutomata.dfa n.reverse).isEmpty
      (MarkBeforeAutomata.dfa n.reverse).initial = false := by
    have := first_nonempty n.reverse
    simp only [MarkBeforeAutomata.dfa, MarkBeforeAutomata.initial]
    rw [decide_eq_false_iff_not]
    exact Finset.nonempty_iff_ne_empty.mp this
  refine ⟨?_, hinit2, ?_⟩
  · intro v
    rw [position_eq_mcnaughton, ← markbefore_eq_mcnaughton,
      ← mb_minimize_accepts hd h0 v,
      show MarkBeforeAutomata.minimize n =
        ((MarkBeforeAutomata.dfa n.reverse).reverse
          ((mbUniverse n.reverse).card + 1)).subset_determinise from rfl,
      DFAb.accepts, dfaAccepts_eq_fold _ _ _ (det_absorbing _)]
  · intro u hu
    have hlive : ∃ v, ((MarkBeforeAutomata.dfa n.reverse).reverse
        ((mbUniverse n.reverse).card + 1)).subset_determinise.accepts
        (u ++ v) = true := by
      obtain ⟨v, hv⟩ := hu
      refine ⟨v, ?_⟩
      rw [show ((MarkBeforeAutomata.dfa n.reverse).reverse
        ((mbUniverse n.reverse).card + 1)).subset_determinise =
          MarkBeforeAutomata.minimize n from rfl,
        mb_minimize_accepts hd h0 (u ++ v), markbefore_eq_mcnaughton,
        ← position_eq_mcnaughton]
      exact hv
    exact live_mem_min _ _ (mb_dfa_miss n.reverse) hA1keep hinitne u hlive

theorem parse_wf {p : String} {n : Node}
    (h : parse p = some (Except.ok n)) :
    posDisjoint n ∧ 0 ∉ n.posDom := by
  obtain ⟨hfst, _⟩ := parse_ok_syms h
  exact ⟨posDisjoint_of_nodup n (by rw [hfst]; exact List.nodup_range' 1 _),
    parse_zero_not_posDom h⟩

/-- C4: for every successfully parsed AST `n` and each of the four
construction variants, `minimize` (reverse the AST, build the variant on the
reversal, reverse the resulting DFA, subset-determinise) yields a DFA
accepting exactly the words the variant's automaton built from `n` accepts;
and its explored state count is minimal: any deterministic transition
structure `(δc, q0, Fc)` recognising the same language, with a state set `S`
containing `q0` and every state reached from `q0` on a word extendable to an
accepted word, has at least as many states. -/
theorem c4_minimize_correct (p : String) (n : Node)
    (h : parse p = some (Except.ok n)) :
    (∀ w : List Char,
      ((PositionAutomata.minimize n).accepts w =
          PositionAutomata.accepts n w ∧
        (FollowAutomata.minimize n).accepts w = FollowAutomata.accepts n w ∧
        (McNaughtonYamadaAutomata.minimize n).accepts w =
          McNaughtonYamadaAutomata.accepts n w ∧
        (MarkBeforeAutomata.minimize n).accepts w =
          MarkBeforeAutomata.accepts n w)) ∧
      (∀ (τ : Type) (δc : τ → Char → τ) (q0 : τ) (Fc : τ → Bool)
        (S : Finset τ),
        (∀ v, Fc (List.foldl δc q0 v) = PositionAutomata.accepts n v) →
        q0 ∈ S →
        (∀ u, (∃ v, PositionAutomata.accepts n (u ++ v) = true) →
          List.foldl δc q0 u ∈ S) →
        ((PositionAutomata.minStates n).card ≤ S.card ∧
          (FollowAutomata.minStates n).card ≤ S.card ∧
          (McNaughtonYamadaAutomata.minStates n).card ≤ S.card ∧
          (MarkBeforeAutomata.minStates n).card ≤ S.card)) := by
  obtain ⟨hd, h0⟩ := parse_wf h
  refine ⟨?_, ?_⟩
  · intro w
    exact ⟨position_minimize_accepts hd h0 w,
      follow_minimize_accepts hd h0 w,
      my_minimize_accepts hd h0 w,
      mb_minimize_accepts hd h0 w⟩
  · intro τ δc q0 Fc S hlang hS0 hSlive
    exact ⟨position_min_le hd h0 δc q0 Fc S hlang hS0 hSlive,
      follow_min_le hd h0 δc q0 Fc S hlang hS0 hSlive,
      my_min_le hd h0 δc q0 Fc S hlang hS0 hSlive,
      mb_min_le hd h0 δc q0 Fc S hlang hS0 hSlive⟩

/-- Witness for C4 at the pattern `a*b` and the word `ab`. -/
theorem c4_minimize_correct_witness :
    parse "a*b" = some (Except.ok exampleAStarB) ∧
      ((PositionAutomata.minimize exampleAStarB).accepts
          (['a', 'b'] : List Char) =
        PositionAutomata.accepts exampleAStarB (['a', 'b'] : List Char) ∧
      (FollowAutomata.minimize exampleAStarB).accepts
          (['a', 'b'] : List Char) =
        FollowAutomata.accepts exampleAStarB (['a', 'b'] : List Char) ∧
      (McNaughtonYamadaAutomata.minimize exampleAStarB).accepts
          (['a', 'b'] : List Char) =
        McNaughtonYamadaAutomata.accepts exampleAStarB
          (['a', 'b'] : List Char) ∧
      (MarkBeforeAutomata.minimize exampleAStarB).accepts
          (['a', 'b'] : List Char) =
        MarkBeforeAutomata.accepts exampleAStarB
          (['a', 'b'] : List Char)) :=
  ⟨by decide,
    (c4_minimize_correct "a*b" exampleAStarB (by decide)).1
      (['a', 'b'] : List Char)⟩

/-- C5: for every pattern that parses successfully, the minimized automata of
all four variants have equal explored state counts. -/
theorem c5_minimize_counts (p : String) (n : Node)
    (h : parse p = some (Except.ok n)) :
    (PositionAutomata.minStates n).card =
        (FollowAutomata.minStates n).card ∧
      (FollowAutomata.minStates n).card =
        (McNaughtonYamadaAutomata.minStates n).card ∧
      (McNaughtonYamadaAutomata.minStates n).card =
        (MarkBeforeAutomata.minStates n).card := by
  obtain ⟨hd, h0⟩ := parse_wf h
  obtain ⟨hlP, hiP, hvP⟩ := position_as_competitor hd h0
  obtain ⟨hlF, hiF, hvF⟩ := follow_as_competitor hd h0
  obtain ⟨hlY, hiY, hvY⟩ := my_as_competitor hd h0
  obtain ⟨hlM, hiM, hvM⟩ := mb_as_competitor hd h0
  refine ⟨le_antisymm ?_ ?_, le_antisymm ?_ ?_, le_antisymm ?_ ?_⟩
  · exact position_min_le hd h0 _ _ _ _ hlF hiF hvF
  · exact follow_min_le hd h0 _ _ _ _ hlP hiP hvP
  · exact follow_min_le hd h0 _ _ _ _ hlY hiY hvY
  · exact my_min_le hd h0 _ _ _ _ hlF hiF hvF
  · exact my_min_le hd h0 _ _ _ _ hlM hiM hvM
  · exact mb_min_le hd h0 _ _ _ _ hlY hiY hvY

/-- Witness for C5 at the pattern `a*b`. -/
theorem c5_minimize_counts_witness :
    parse "a*b" = some (Except.ok exampleAStarB) ∧
      ((PositionAutomata.minStates exampleAStarB).card =
          (FollowAutomata.minStates exampleAStarB).card ∧
        (FollowAutomata.minStates exampleAStarB).card =
          (McNaughtonYamadaAutomata.minStates exampleAStarB).card ∧
        (McNaughtonYamadaAutomata.minStates exampleAStarB).card =
          (MarkBeforeAutomata.minStates exampleAStarB).card) :=
  ⟨by decide, c5_minimize_counts "a*b" exampleAStarB (by decide)⟩

/-- Witness for C10 at the nullable pattern `a*`. -/
theorem c10_empty_word_acceptance_witness :
    parse "a*" = some (Except.ok (Node.Star (Node.Symbol 'a' 1))) ∧
      (PositionAutomata.accepts (Node.Star (Node.Symbol 'a' 1)) [] =
          (Node.Star (Node.Symbol 'a' 1)).nullable ∧
        FollowAutomata.accepts (Node.Star (Node.Symbol 'a' 1)) [] =
          (Node.Star (Node.Symbol 'a' 1)).nullable ∧
        McNaughtonYamadaAutomata.accepts (Node.Star (Node.Symbol 'a' 1)) [] =
          (Node.Star (Node.Symbol 'a' 1)).nullable ∧
        MarkBeforeAutomata.accepts (Node.Star (Node.Symbol 'a' 1)) [] =
          (Node.Star (Node.Symbol 'a' 1)).nullable ∧
        ((Node.Star (Node.Symbol 'a' 1)).nullable = true ↔
          0 ∈ (Node.Star (Node.Symbol 'a' 1)).last_0)) :=
  ⟨by decide, c10_empty_word_acceptance "a*" (Node.Star (Node.Symbol 'a' 1))
    (by decide)⟩

end Automata
